import Mathlib

/-!
Verification of the ReliaPrompt test-execution and evaluation engine.

This file embeds the core algorithms of the repository in Lean 4:

* the structural JSON comparator (`src/utils/json-comparison.ts`):
  `jeq` (the `fast-deep-equal` library on JSON-like values),
  `getUniqueValues`, `existsInArray`, `compareArraysAsSet`,
  `compareObjects`, `calculateMetrics`, `calculateScore`, `compareJSON`;
* the recursive JSON-Schema subset validator
  (`validateJsonSchema` in `src/services/test-runner.ts`);
* the LLM grader (`evaluateWithLLM`), the evaluation dispatcher
  (`evaluateOutput`) and the skipped-evaluation result;
* the run orchestrator's per-unit execution and score aggregation
  (`runTests` in `src/services/test-runner.ts`), with the external
  generation/grading capabilities modelled as explicit outcome-valued
  parameters;
* the optimizer loop, which is not present under `src/` (only its
  configuration fields and feature documentation are); it is modelled
  from the specification.

JavaScript numbers are modelled as rationals (the values occurring in
the claims are small integers, where IEEE doubles are exact), JS objects
as association lists of string keys in insertion order (JS objects never
hold a duplicate key; the well-formedness predicate `wf` captures this),
and asynchronous capability calls as explicit outcome parameters
(success value or thrown-error message).
-/

namespace RP

/-- A parsed JSON-like value (the result of `JSON.parse`). -/
inductive JsonValue where
  | null : JsonValue
  | bool (b : Bool) : JsonValue
  | num (q : ℚ) : JsonValue
  | str (s : String) : JsonValue
  | arr (xs : List JsonValue) : JsonValue
  | obj (fields : List (String × JsonValue)) : JsonValue

/-- JS property read `record[k]` / `k in record` on an object modelled as an
association list: the first binding of the key, if any. -/
def lookupField (k : String) : List (String × JsonValue) → Option JsonValue
  | [] => none
  | (k2, v) :: fs => if k2 == k then some v else lookupField k fs

mutual

/-- The `fast-deep-equal` library restricted to JSON-like values, used by
`json-comparison.ts` and `test-runner.ts` as `equal`: structural equality
with arrays compared index-wise after a length check, and objects compared
by key count plus per-key lookup of the left object's keys in the right. -/
def jeq : JsonValue → JsonValue → Bool
  | .null, .null => true
  | .bool a, .bool b => a == b
  | .num a, .num b => a == b
  | .str a, .str b => a == b
  | .arr xs, .arr ys => xs.length == ys.length && jeqList xs ys
  | .obj fs, .obj gs => fs.length == gs.length && jeqFields fs gs
  | _, _ => false

/-- Index-wise equality of two arrays of equal length (the element loop of
`fast-deep-equal`). -/
def jeqList : List JsonValue → List JsonValue → Bool
  | [], [] => true
  | x :: xs, y :: ys => jeq x y && jeqList xs ys
  | _, _ => false

/-- The object key loop of `fast-deep-equal`: every key of the left object
must be present in the right object with a deep-equal value. -/
def jeqFields : List (String × JsonValue) → List (String × JsonValue) → Bool
  | [], _ => true
  | (k, v) :: fs, gs =>
      (match lookupField k gs with
       | some w => jeq v w
       | none => false) && jeqFields fs gs

end

/-- Keys of an object, in insertion order (`Object.keys`). -/
def keysOf (fs : List (String × JsonValue)) : List String := fs.map Prod.fst

/-- Boolean test that a list of keys has no duplicate. -/
def nodupKeys : List String → Bool
  | [] => true
  | k :: ks => !(ks.contains k) && nodupKeys ks

mutual

/-- Well-formedness of a JSON-like value: every object, at every depth, has
pairwise-distinct keys. Every value produced by `JSON.parse` (and every JS
object) satisfies this; association lists with a repeated key do not
correspond to any JS value. -/
def wf : JsonValue → Bool
  | .null => true
  | .bool _ => true
  | .num _ => true
  | .str _ => true
  | .arr xs => wfList xs
  | .obj fs => nodupKeys (keysOf fs) && wfFields fs

/-- All elements of an array are well-formed. -/
def wfList : List JsonValue → Bool
  | [] => true
  | x :: xs => wf x && wfList xs

/-- All values of an object are well-formed. -/
def wfFields : List (String × JsonValue) → Bool
  | [] => true
  | (_, v) :: fs => wf v && wfFields fs

end

/-- The three counters produced by the structural comparator
(`json-comparison.ts` names the third one `unexpectedCount`; the later
`compare.ts`/`test-runner.ts` call the same quantity `unexpectedFound`). -/
structure Metrics where
  expectedFound : Nat
  expectedTotal : Nat
  unexpectedCount : Nat
  deriving Repr, DecidableEq

/-- `getUniqueValues` of `json-comparison.ts`: deduplicate an array by deep
equality, keeping first occurrences in order. -/
def getUniqueValues (arr : List JsonValue) : List JsonValue :=
  arr.foldl
    (fun unique item => if unique.any (fun u => jeq u item) then unique else unique ++ [item])
    []

/-- `existsInArray` of `json-comparison.ts`: membership by deep equality. -/
def existsInArray (value : JsonValue) (arr : List JsonValue) : Bool :=
  arr.any (fun item => jeq item value)

/-- `compareArraysAsSet` of `json-comparison.ts`: compare two arrays as sets
(order-agnostic, unique values). -/
def compareArraysAsSet (expected actual : List JsonValue) : Metrics :=
  let uniqueExpected := getUniqueValues expected
  let uniqueActual := getUniqueValues actual
  { expectedFound := uniqueExpected.countP (fun e => existsInArray e uniqueActual)
    expectedTotal := uniqueExpected.length
    unexpectedCount := uniqueActual.countP (fun a => !existsInArray a uniqueExpected) }

/-- `compareObjects` of `json-comparison.ts`: partial key matching. A key of
`expected` counts as found when it is present in `actual` with a deep-equal
value; a key of `actual` absent from `expected` counts as unexpected. -/
def compareObjects (expected actual : List (String × JsonValue)) : Metrics :=
  { expectedFound := expected.countP (fun f =>
      match lookupField f.1 actual with
      | some av => jeq f.2 av
      | none => false)
    expectedTotal := expected.length
    unexpectedCount := actual.countP (fun f => (lookupField f.1 expected).isNone) }

/-- `calculateMetrics` of `json-comparison.ts`: the type-directed case split
(null handling, array/array as sets, array/non-array mismatch, object/object
partial matching, primitives by deep equality). -/
def calculateMetrics (expected actual : JsonValue) : Metrics :=
  match expected, actual with
  | .null, .null => { expectedFound := 1, expectedTotal := 1, unexpectedCount := 0 }
  | .null, _ => { expectedFound := 0, expectedTotal := 1, unexpectedCount := 1 }
  | _, .null => { expectedFound := 0, expectedTotal := 1, unexpectedCount := 0 }
  | .arr xs, .arr ys => compareArraysAsSet xs ys
  | .arr xs, _ =>
      { expectedFound := 0
        expectedTotal := max (getUniqueValues xs).length 1
        unexpectedCount := 1 }
  | _, .arr ys =>
      { expectedFound := 0
        expectedTotal := 1
        unexpectedCount := (getUniqueValues ys).length }
  | .obj fs, .obj gs => compareObjects fs gs
  | e, a =>
      if jeq e a then { expectedFound := 1, expectedTotal := 1, unexpectedCount := 0 }
      else { expectedFound := 0, expectedTotal := 1, unexpectedCount := 1 }

/-- `Math.round` on a non-negative rational: round half up. -/
def jsRound (q : ℚ) : ℤ := (q + 1 / 2).floor

/-- `calculateScore` of `json-comparison.ts`:
`round(expectedFound / (expectedTotal + unexpectedCount) * 100)`, with a
denominator of `0` defined as the perfect score `100`. -/
def calculateScore (expectedFound expectedTotal unexpectedCount : Nat) : ℤ :=
  if expectedTotal + unexpectedCount = 0 then 100
  else jsRound ((expectedFound : ℚ) / ((expectedTotal : ℚ) + (unexpectedCount : ℚ)) * 100)

/-- The result record of `compareJSON` (`json-comparison.ts`). The
`expectedParsed`/`actualParsed` echo fields carry the parsed inputs. -/
structure ComparisonResult where
  isEqual : Bool
  score : ℤ
  expectedFound : Nat
  expectedTotal : Nat
  unexpectedCount : Nat
  error : Option String
  expectedParsed : Option JsonValue
  actualParsed : Option JsonValue

/-- The success path of `compareJSON` (`json-comparison.ts`, after both
inputs parsed): metrics, score, and `isEqual` iff the score is exactly 100.
The tolerant text-level parsing that precedes this in the source is not
embedded; the claims quantify over already-parsed values. -/
def compareJSON (expected actual : JsonValue) : ComparisonResult :=
  let metrics := calculateMetrics expected actual
  let score := calculateScore metrics.expectedFound metrics.expectedTotal metrics.unexpectedCount
  let isEqual := score == 100
  { isEqual := isEqual
    score := score
    expectedFound := metrics.expectedFound
    expectedTotal := metrics.expectedTotal
    unexpectedCount := metrics.unexpectedCount
    error := if isEqual then none else some "Values do not match"
    expectedParsed := some expected
    actualParsed := some actual }


/-! ### Basic facts about field lookup -/

theorem lookupField_append (k : String) (fs gs : List (String × JsonValue)) :
    lookupField k (fs ++ gs) =
      (match lookupField k fs with
       | some v => some v
       | none => lookupField k gs) := by
  induction fs with
  | nil => simp [lookupField]
  | cons p fs ih =>
    obtain ⟨k2, v⟩ := p
    by_cases h : k2 == k <;> simp [lookupField, h, ih]

theorem lookupField_eq_none_iff (k : String) (fs : List (String × JsonValue)) :
    lookupField k fs = none ↔ ∀ p ∈ fs, ¬ p.1 = k := by
  induction fs with
  | nil => simp [lookupField]
  | cons p fs ih =>
    obtain ⟨k2, v⟩ := p
    by_cases h : k2 == k
    · simp [lookupField, h, eq_of_beq h]
    · simp only [beq_iff_eq] at h
      simp [lookupField, h, ih]

theorem lookupField_mem {k : String} {v : JsonValue} {fs : List (String × JsonValue)}
    (h : lookupField k fs = some v) : (k, v) ∈ fs := by
  induction fs with
  | nil => simp [lookupField] at h
  | cons p fs ih =>
    obtain ⟨k2, w⟩ := p
    by_cases hk : k2 == k
    · have hkk : k2 = k := eq_of_beq hk
      subst hkk
      simp only [lookupField, beq_self_eq_true, if_true, Option.some.injEq] at h
      subst h
      exact List.mem_cons_self _ _
    · simp only [lookupField, hk, Bool.false_eq_true, if_false] at h
      exact List.mem_cons_of_mem _ (ih h)

theorem lookupField_isSome_iff (k : String) (fs : List (String × JsonValue)) :
    (lookupField k fs).isSome = true ↔ k ∈ keysOf fs := by
  induction fs with
  | nil => simp [lookupField, keysOf]
  | cons p fs ih =>
    obtain ⟨k2, v⟩ := p
    by_cases h : k2 == k
    · simp [lookupField, h, keysOf, eq_of_beq h]
    · simp only [beq_iff_eq] at h
      simp [lookupField, h, keysOf, ih, Ne.symm h]

/-! ### Claim C1: the comparator's score formula -/

/-- Claim C1: for every pair of parsed JSON-like values, `compareJSON`
returns `score = round(expectedFound / (expectedTotal + unexpectedFound) * 100)`;
when `expectedTotal + unexpectedFound = 0` the score is the perfect score
`100`, and `isEqual` holds if and only if the score equals 100. -/
theorem claim_C1_comparator_score_formula (expected actual : JsonValue) :
    ((compareJSON expected actual).score =
      (if (calculateMetrics expected actual).expectedTotal
            + (calculateMetrics expected actual).unexpectedCount = 0 then (100 : ℤ)
       else jsRound (((calculateMetrics expected actual).expectedFound : ℚ)
            / (((calculateMetrics expected actual).expectedTotal : ℚ)
                + ((calculateMetrics expected actual).unexpectedCount : ℚ)) * 100)))
    ∧ ((compareJSON expected actual).isEqual = true ↔ (compareJSON expected actual).score = 100) := by
  refine ⟨rfl, ?_⟩
  show (calculateScore _ _ _ == 100) = true ↔ _
  exact beq_iff_eq

/-! ### Claim C3: an extra actual key bumps `unexpectedCount` by one -/

/-- Claim C3: for every pair of objects and every key `k` present in neither,
comparing `expected` against `actual` extended with a binding for `k` yields
`unexpectedCount` (a.k.a. `unexpectedFound`) exactly one greater, with
`expectedFound` and `expectedTotal` unchanged. -/
theorem claim_C3_extra_actual_key (expected actual : List (String × JsonValue))
    (k : String) (v : JsonValue)
    (hke : lookupField k expected = none) (_hka : lookupField k actual = none) :
    compareObjects expected (actual ++ [(k, v)]) =
      { expectedFound := (compareObjects expected actual).expectedFound
        expectedTotal := (compareObjects expected actual).expectedTotal
        unexpectedCount := (compareObjects expected actual).unexpectedCount + 1 } := by
  have hkeys : ∀ p ∈ expected, ¬ p.1 = k := (lookupField_eq_none_iff k expected).mp hke
  have h1 : expected.countP (fun f =>
        match lookupField f.1 (actual ++ [(k, v)]) with
        | some av => jeq f.2 av
        | none => false)
      = expected.countP (fun f =>
        match lookupField f.1 actual with
        | some av => jeq f.2 av
        | none => false) := by
    refine List.countP_congr fun f hf => ?_
    have hfk : ¬ (k == f.1) = true := by
      simp only [beq_iff_eq]
      intro hEq
      exact hkeys f hf hEq.symm
    rw [lookupField_append]
    cases hcase : lookupField f.1 actual with
    | some av => simp
    | none => simp [lookupField, hfk]
  have h3 : (actual ++ [(k, v)]).countP (fun f => (lookupField f.1 expected).isNone)
      = actual.countP (fun f => (lookupField f.1 expected).isNone) + 1 := by
    rw [List.countP_append]
    simp [List.countP_cons, hke]
  simp only [compareObjects]
  rw [h1, h3]

/-- Witness for claim C3 at a concrete input. -/
theorem claim_C3_extra_actual_key_witness :
    compareObjects [("a", JsonValue.num 1)] ([("a", JsonValue.num 1)] ++ [("b", JsonValue.num 2)]) =
      { expectedFound := (compareObjects [("a", JsonValue.num 1)] [("a", JsonValue.num 1)]).expectedFound
        expectedTotal := (compareObjects [("a", JsonValue.num 1)] [("a", JsonValue.num 1)]).expectedTotal
        unexpectedCount :=
          (compareObjects [("a", JsonValue.num 1)] [("a", JsonValue.num 1)]).unexpectedCount + 1 } :=
  claim_C3_extra_actual_key [("a", JsonValue.num 1)] [("a", JsonValue.num 1)]
    "b" (JsonValue.num 2) rfl rfl

/-! ### Well-formedness and deep-equality infrastructure

To reason about the set semantics of `compareArraysAsSet` we establish that
`jeq` is an equivalence on well-formed values (`fast-deep-equal` on actual
JS values, whose objects never hold duplicate keys). -/

theorem nodupKeys_iff (ks : List String) : nodupKeys ks = true ↔ ks.Nodup := by
  induction ks with
  | nil => simp [nodupKeys]
  | cons k ks ih => simp [nodupKeys, ih, List.nodup_cons]

theorem wfList_iff {xs : List JsonValue} : wfList xs = true ↔ ∀ x ∈ xs, wf x = true := by
  induction xs with
  | nil => simp [wfList]
  | cons x xs ih => simp [wfList, ih]

theorem wfFields_iff {fs : List (String × JsonValue)} :
    wfFields fs = true ↔ ∀ p ∈ fs, wf p.2 = true := by
  induction fs with
  | nil => simp [wfFields]
  | cons p fs ih =>
    obtain ⟨k, v⟩ := p
    simp [wfFields, ih]

theorem wf_obj_nodup {fs : List (String × JsonValue)} (h : wf (.obj fs) = true) :
    (keysOf fs).Nodup := by
  simp only [wf, Bool.and_eq_true] at h
  exact (nodupKeys_iff _).mp h.1

theorem wf_obj_values {fs : List (String × JsonValue)} (h : wf (.obj fs) = true) :
    ∀ p ∈ fs, wf p.2 = true := by
  simp only [wf, Bool.and_eq_true] at h
  exact wfFields_iff.mp h.2

theorem wf_arr_elems {xs : List JsonValue} (h : wf (.arr xs) = true) :
    ∀ x ∈ xs, wf x = true := wfList_iff.mp h

theorem mem_keysOf_iff {k : String} {fs : List (String × JsonValue)} :
    k ∈ keysOf fs ↔ ∃ v, (k, v) ∈ fs := by
  constructor
  · intro h
    obtain ⟨p, hp, hk⟩ := List.mem_map.mp h
    subst hk
    exact ⟨p.2, by rw [Prod.mk.eta]; exact hp⟩
  · rintro ⟨v, hv⟩
    exact List.mem_map.mpr ⟨(k, v), hv, rfl⟩

theorem lookupField_of_mem_nodup {fs : List (String × JsonValue)}
    (hnd : (keysOf fs).Nodup) {k : String} {v : JsonValue} (h : (k, v) ∈ fs) :
    lookupField k fs = some v := by
  induction fs with
  | nil => cases h
  | cons p fs ih =>
    obtain ⟨k2, w⟩ := p
    simp only [keysOf, List.map_cons, List.nodup_cons] at hnd
    rcases List.mem_cons.mp h with heq | hmem
    · rw [Prod.mk.injEq] at heq
      obtain ⟨rfl, rfl⟩ := heq
      simp [lookupField]
    · have hk2 : ¬ (k2 == k) = true := by
        simp only [beq_iff_eq]
        rintro rfl
        exact hnd.1 (mem_keysOf_iff.mpr ⟨v, hmem⟩)
      simp only [lookupField, hk2, Bool.false_eq_true, if_false]
      exact ih (by simpa [keysOf] using hnd.2) hmem

theorem sizeOf_lt_of_mem_arr {x : JsonValue} {xs : List JsonValue} (h : x ∈ xs) :
    sizeOf x < sizeOf (JsonValue.arr xs) := by
  have := List.sizeOf_lt_of_mem h
  simp only [JsonValue.arr.sizeOf_spec]
  omega

theorem sizeOf_snd_lt_of_mem_obj {p : String × JsonValue} {fs : List (String × JsonValue)}
    (h : p ∈ fs) : sizeOf p.2 < sizeOf (JsonValue.obj fs) := by
  have h1 := List.sizeOf_lt_of_mem h
  obtain ⟨k, v⟩ := p
  simp only [Prod.mk.sizeOf_spec] at h1
  simp only [JsonValue.obj.sizeOf_spec]
  omega

theorem jeqList_iff {xs ys : List JsonValue} :
    jeqList xs ys = true ↔ List.Forall₂ (fun a b => jeq a b = true) xs ys := by
  induction xs generalizing ys with
  | nil => cases ys <;> simp [jeqList]
  | cons x xs ih =>
    cases ys with
    | nil => simp [jeqList]
    | cons y ys => simp [jeqList, ih, List.forall₂_cons]

theorem jeq_arr_iff {xs ys : List JsonValue} :
    jeq (.arr xs) (.arr ys) = true ↔ List.Forall₂ (fun a b => jeq a b = true) xs ys := by
  simp only [jeq, Bool.and_eq_true, beq_iff_eq, jeqList_iff]
  constructor
  · exact fun h => h.2
  · exact fun h => ⟨h.length_eq, h⟩

theorem jeqFields_iff {fs gs : List (String × JsonValue)} :
    jeqFields fs gs = true ↔
      ∀ p ∈ fs, ∃ w, lookupField p.1 gs = some w ∧ jeq p.2 w = true := by
  induction fs with
  | nil => simp [jeqFields]
  | cons p fs ih =>
    obtain ⟨k, v⟩ := p
    simp only [jeqFields, Bool.and_eq_true, ih, List.mem_cons]
    constructor
    · rintro ⟨h1, h2⟩
      rintro q (rfl | hq)
      · cases hlk : lookupField k gs with
        | none => rw [hlk] at h1; cases h1
        | some w => rw [hlk] at h1; exact ⟨w, rfl, h1⟩
      · exact h2 q hq
    · rintro h
      refine ⟨?_, fun q hq => h q (Or.inr hq)⟩
      obtain ⟨w, hw, hjw⟩ := h (k, v) (Or.inl rfl)
      rw [hw]
      exact hjw

theorem jeq_obj_iff {fs gs : List (String × JsonValue)} :
    jeq (.obj fs) (.obj gs) = true ↔
      fs.length = gs.length ∧
        ∀ p ∈ fs, ∃ w, lookupField p.1 gs = some w ∧ jeq p.2 w = true := by
  simp [jeq, jeqFields_iff]

theorem forall₂_flip_jeq : ∀ (xs ys : List JsonValue),
    (∀ x ∈ xs, ∀ y ∈ ys, jeq x y = true → jeq y x = true) →
    List.Forall₂ (fun a b => jeq a b = true) xs ys →
    List.Forall₂ (fun a b => jeq a b = true) ys xs := by
  intro xs
  induction xs with
  | nil =>
    intro ys _ h
    cases h
    exact List.Forall₂.nil
  | cons x xs ih =>
    intro ys hsym h
    cases h with
    | cons hab htail =>
      exact List.Forall₂.cons
        (hsym x (List.mem_cons_self _ _) _ (List.mem_cons_self _ _) hab)
        (ih _ (fun u hu y hy => hsym u (List.mem_cons_of_mem _ hu) y (List.mem_cons_of_mem _ hy))
          htail)

theorem forall₂_comp_jeq : ∀ (xs ys zs : List JsonValue),
    (∀ x ∈ xs, ∀ y ∈ ys, ∀ z ∈ zs, jeq x y = true → jeq y z = true → jeq x z = true) →
    List.Forall₂ (fun a b => jeq a b = true) xs ys →
    List.Forall₂ (fun a b => jeq a b = true) ys zs →
    List.Forall₂ (fun a b => jeq a b = true) xs zs := by
  intro xs
  induction xs with
  | nil =>
    intro ys zs _ h1 h2
    cases h1
    cases h2
    exact List.Forall₂.nil
  | cons x xs ih =>
    intro ys zs htr h1 h2
    cases h1 with
    | cons hxy h1t =>
      cases h2 with
      | cons hyz h2t =>
        refine List.Forall₂.cons
          (htr x (List.mem_cons_self _ _) _ (List.mem_cons_self _ _) _ (List.mem_cons_self _ _)
            hxy hyz) ?_
        exact ih _ _
          (fun u hu y hy z hz => htr u (List.mem_cons_of_mem _ hu) y (List.mem_cons_of_mem _ hy)
            z (List.mem_cons_of_mem _ hz))
          h1t h2t

theorem jeq_refl_sized : ∀ (n : Nat) (a : JsonValue), sizeOf a ≤ n → wf a = true →
    jeq a a = true := by
  intro n
  induction n using Nat.strong_induction_on with
  | _ n ih =>
    intro a hsize hwf
    cases a with
    | null => rfl
    | bool b => simp [jeq]
    | num q => simp [jeq]
    | str s => simp [jeq]
    | arr xs =>
      rw [jeq_arr_iff, List.forall₂_same]
      intro x hx
      exact ih (sizeOf x) (lt_of_lt_of_le (sizeOf_lt_of_mem_arr hx) hsize) x le_rfl
        (wf_arr_elems hwf x hx)
    | obj fs =>
      rw [jeq_obj_iff]
      refine ⟨rfl, fun p hp => ?_⟩
      obtain ⟨k, v⟩ := p
      refine ⟨v, lookupField_of_mem_nodup (wf_obj_nodup hwf) hp, ?_⟩
      exact ih (sizeOf v) (lt_of_lt_of_le (sizeOf_snd_lt_of_mem_obj hp) hsize) v le_rfl
        (wf_obj_values hwf (k, v) hp)

/-- `fast-deep-equal` is reflexive on well-formed values. -/
theorem jeq_refl (a : JsonValue) (h : wf a = true) : jeq a a = true :=
  jeq_refl_sized (sizeOf a) a le_rfl h

theorem jeq_symm_sized : ∀ (n : Nat) (a b : JsonValue), sizeOf a ≤ n →
    wf a = true → wf b = true → jeq a b = true → jeq b a = true := by
  intro n
  induction n using Nat.strong_induction_on with
  | _ n ih =>
    intro a b hsize hwa hwb hab
    cases a <;> cases b <;> try exact Bool.noConfusion hab
    case null.null => exact rfl
    case bool.bool x y =>
      simp only [jeq, beq_iff_eq] at hab ⊢
      exact hab.symm
    case num.num x y =>
      simp only [jeq, beq_iff_eq] at hab ⊢
      exact hab.symm
    case str.str x y =>
      simp only [jeq, beq_iff_eq] at hab ⊢
      exact hab.symm
    case arr.arr xs ys =>
      rw [jeq_arr_iff] at hab ⊢
      refine forall₂_flip_jeq xs ys (fun x hx y hy hj => ?_) hab
      exact ih (sizeOf x) (lt_of_lt_of_le (sizeOf_lt_of_mem_arr hx) hsize) x y le_rfl
        (wf_arr_elems hwa x hx) (wf_arr_elems hwb y hy) hj
    case obj.obj fs gs =>
      rw [jeq_obj_iff] at hab ⊢
      obtain ⟨hlen, hfields⟩ := hab
      have hndf := wf_obj_nodup hwa
      have hndg := wf_obj_nodup hwb
      have hsub : keysOf fs ⊆ keysOf gs := by
        intro k hk
        obtain ⟨v, hv⟩ := mem_keysOf_iff.mp hk
        obtain ⟨w, hw, _⟩ := hfields (k, v) hv
        exact (lookupField_isSome_iff k gs).mp (by simp [hw])
      have hperm : List.Perm (keysOf fs) (keysOf gs) :=
        (List.subperm_of_subset hndf hsub).perm_of_length_le
          (by simp [keysOf, hlen])
      refine ⟨hlen.symm, fun p hp => ?_⟩
      obtain ⟨k, w⟩ := p
      have hkfs : k ∈ keysOf fs := hperm.mem_iff.mpr (mem_keysOf_iff.mpr ⟨w, hp⟩)
      obtain ⟨v, hv⟩ := mem_keysOf_iff.mp hkfs
      obtain ⟨w2, hw2, hjvw2⟩ := hfields (k, v) hv
      rw [lookupField_of_mem_nodup hndg hp] at hw2
      injection hw2 with hw2eq
      subst hw2eq
      refine ⟨v, lookupField_of_mem_nodup hndf hv, ?_⟩
      exact ih (sizeOf v) (lt_of_lt_of_le (sizeOf_snd_lt_of_mem_obj hv) hsize) v w le_rfl
        (wf_obj_values hwa (k, v) hv) (wf_obj_values hwb (k, w) hp) hjvw2

/-- `fast-deep-equal` is symmetric on well-formed values. -/
theorem jeq_symm {a b : JsonValue} (ha : wf a = true) (hb : wf b = true)
    (h : jeq a b = true) : jeq b a = true :=
  jeq_symm_sized (sizeOf a) a b le_rfl ha hb h

theorem jeq_trans_sized : ∀ (n : Nat) (a b c : JsonValue), sizeOf a ≤ n →
    wf a = true → wf b = true → wf c = true →
    jeq a b = true → jeq b c = true → jeq a c = true := by
  intro n
  induction n using Nat.strong_induction_on with
  | _ n ih =>
    intro a b c hsize hwa hwb hwc hab hbc
    cases a <;> cases b <;> try exact Bool.noConfusion hab
    all_goals cases c <;> try exact Bool.noConfusion hbc
    case null.null.null => exact rfl
    case bool.bool.bool x y z =>
      simp only [jeq, beq_iff_eq] at hab hbc ⊢
      exact hab.trans hbc
    case num.num.num x y z =>
      simp only [jeq, beq_iff_eq] at hab hbc ⊢
      exact hab.trans hbc
    case str.str.str x y z =>
      simp only [jeq, beq_iff_eq] at hab hbc ⊢
      exact hab.trans hbc
    case arr.arr.arr xs ys zs =>
      rw [jeq_arr_iff] at hab hbc ⊢
      refine forall₂_comp_jeq xs ys zs (fun x hx y hy z hz h1 h2 => ?_) hab hbc
      exact ih (sizeOf x) (lt_of_lt_of_le (sizeOf_lt_of_mem_arr hx) hsize) x y z le_rfl
        (wf_arr_elems hwa x hx) (wf_arr_elems hwb y hy) (wf_arr_elems hwc z hz) h1 h2
    case obj.obj.obj fs gs hs =>
      rw [jeq_obj_iff] at hab hbc ⊢
      obtain ⟨hlen1, hf1⟩ := hab
      obtain ⟨hlen2, hf2⟩ := hbc
      refine ⟨hlen1.trans hlen2, fun p hp => ?_⟩
      obtain ⟨k, v⟩ := p
      obtain ⟨w, hw, hjvw⟩ := hf1 (k, v) hp
      have hwgs : (k, w) ∈ gs := lookupField_mem hw
      obtain ⟨u, hu, hjwu⟩ := hf2 (k, w) hwgs
      have huhs : (k, u) ∈ hs := lookupField_mem hu
      refine ⟨u, hu, ?_⟩
      exact ih (sizeOf v) (lt_of_lt_of_le (sizeOf_snd_lt_of_mem_obj hp) hsize) v w u le_rfl
        (wf_obj_values hwa (k, v) hp) (wf_obj_values hwb (k, w) hwgs)
        (wf_obj_values hwc (k, u) huhs) hjvw hjwu

/-- `fast-deep-equal` is transitive on well-formed values. -/
theorem jeq_trans {a b c : JsonValue} (ha : wf a = true) (hb : wf b = true)
    (hc : wf c = true) (h1 : jeq a b = true) (h2 : jeq b c = true) : jeq a c = true :=
  jeq_trans_sized (sizeOf a) a b c le_rfl ha hb hc h1 h2

/-! ### Invariants of `getUniqueValues` -/

/-- One step of the deduplication loop of `getUniqueValues`. -/
def uniqStep (unique : List JsonValue) (item : JsonValue) : List JsonValue :=
  if unique.any (fun u => jeq u item) then unique else unique ++ [item]

theorem getUniqueValues_eq_foldl (l : List JsonValue) :
    getUniqueValues l = List.foldl uniqStep [] l := rfl

theorem existsInArray_iff {v : JsonValue} {l : List JsonValue} :
    existsInArray v l = true ↔ ∃ u ∈ l, jeq u v = true := by
  simp [existsInArray, List.any_eq_true]

theorem subset_foldl_uniqStep (l : List JsonValue) : ∀ (acc : List JsonValue),
    acc ⊆ List.foldl uniqStep acc l := by
  induction l with
  | nil => intro acc; simp [List.foldl]
  | cons x xs ih =>
    intro acc
    refine subset_trans ?_ (ih (uniqStep acc x))
    unfold uniqStep
    split
    · exact fun _ h => h
    · exact List.subset_append_left _ _

theorem mem_foldl_uniqStep {u : JsonValue} (l : List JsonValue) : ∀ (acc : List JsonValue),
    u ∈ List.foldl uniqStep acc l → u ∈ acc ∨ u ∈ l := by
  induction l with
  | nil => intro acc h; exact Or.inl (by simpa using h)
  | cons x xs ih =>
    intro acc h
    rcases ih (uniqStep acc x) h with hacc | hxs
    · unfold uniqStep at hacc
      split at hacc
      · exact Or.inl hacc
      · rcases List.mem_append.mp hacc with h1 | h1
        · exact Or.inl h1
        · rw [List.mem_singleton] at h1
          subst h1
          exact Or.inr (List.mem_cons_self _ _)
    · exact Or.inr (List.mem_cons_of_mem _ hxs)

theorem wf_foldl_uniqStep {l acc : List JsonValue}
    (hacc : ∀ x ∈ acc, wf x = true) (hl : ∀ x ∈ l, wf x = true) :
    ∀ u ∈ List.foldl uniqStep acc l, wf u = true := by
  intro u hu
  rcases mem_foldl_uniqStep l acc hu with h | h
  · exact hacc u h
  · exact hl u h

theorem pairwise_foldl_uniqStep (l : List JsonValue) : ∀ (acc : List JsonValue),
    List.Pairwise (fun u w => jeq u w = false) acc →
    List.Pairwise (fun u w => jeq u w = false) (List.foldl uniqStep acc l) := by
  induction l with
  | nil => intro acc h; simpa using h
  | cons x xs ih =>
    intro acc hacc
    refine ih (uniqStep acc x) ?_
    unfold uniqStep
    split
    · exact hacc
    · rename_i hnone
      rw [List.pairwise_append]
      refine ⟨hacc, List.pairwise_singleton _ _, ?_⟩
      intro u hu w hw
      rw [List.mem_singleton] at hw
      subst hw
      by_cases hb : jeq u w = true
      · exact absurd (List.any_eq_true.mpr ⟨u, hu, hb⟩) hnone
      · simpa using hb

theorem existsInArray_foldl_uniqStep {v : JsonValue} (hv : wf v = true) :
    ∀ (l acc : List JsonValue), (∀ x ∈ acc, wf x = true) → (∀ x ∈ l, wf x = true) →
    (existsInArray v (List.foldl uniqStep acc l) = true ↔
      existsInArray v acc = true ∨ existsInArray v l = true) := by
  intro l
  induction l with
  | nil =>
    intro acc _ _
    simp [List.foldl, existsInArray]
  | cons x xs ih =>
    intro acc hacc hl
    have hwx : wf x = true := hl x (List.mem_cons_self _ _)
    have hacc' : ∀ y ∈ uniqStep acc x, wf y = true := by
      intro y hy
      unfold uniqStep at hy
      split at hy
      · exact hacc y hy
      · rcases List.mem_append.mp hy with h1 | h1
        · exact hacc y h1
        · rw [List.mem_singleton] at h1; subst h1; exact hwx
    have hxs : ∀ y ∈ xs, wf y = true := fun y hy => hl y (List.mem_cons_of_mem _ hy)
    rw [List.foldl_cons, ih (uniqStep acc x) hacc' hxs]
    constructor
    · rintro (hstep | htail)
      · obtain ⟨u, hu, hj⟩ := existsInArray_iff.mp hstep
        unfold uniqStep at hu
        split at hu
        · exact Or.inl (existsInArray_iff.mpr ⟨u, hu, hj⟩)
        · rcases List.mem_append.mp hu with h1 | h1
          · exact Or.inl (existsInArray_iff.mpr ⟨u, h1, hj⟩)
          · rw [List.mem_singleton] at h1
            subst h1
            exact Or.inr (existsInArray_iff.mpr ⟨u, List.mem_cons_self _ _, hj⟩)
      · obtain ⟨u, hu, hj⟩ := existsInArray_iff.mp htail
        exact Or.inr (existsInArray_iff.mpr ⟨u, List.mem_cons_of_mem _ hu, hj⟩)
    · rintro (hin | hcons)
      · obtain ⟨u, hu, hj⟩ := existsInArray_iff.mp hin
        refine Or.inl (existsInArray_iff.mpr ⟨u, ?_, hj⟩)
        unfold uniqStep
        split
        · exact hu
        · exact List.mem_append_left _ hu
      · obtain ⟨u, hu, hj⟩ := existsInArray_iff.mp hcons
        rcases List.mem_cons.mp hu with rfl | hrest
        · unfold uniqStep
          by_cases hany : (acc.any fun w => jeq w u) = true
          · obtain ⟨w, hwacc, hjw⟩ := List.any_eq_true.mp hany
            refine Or.inl ?_
            rw [if_pos hany]
            exact existsInArray_iff.mpr
              ⟨w, hwacc, jeq_trans (hacc w hwacc) hwx hv hjw hj⟩
          · refine Or.inl ?_
            rw [if_neg hany]
            exact existsInArray_iff.mpr
              ⟨u, List.mem_append_right _ (List.mem_singleton.mpr rfl), hj⟩
        · exact Or.inr (existsInArray_iff.mpr ⟨u, hrest, hj⟩)

theorem mem_getUniqueValues {u : JsonValue} {l : List JsonValue}
    (h : u ∈ getUniqueValues l) : u ∈ l := by
  rw [getUniqueValues_eq_foldl] at h
  rcases mem_foldl_uniqStep l [] h with h1 | h1
  · cases h1
  · exact h1

theorem wf_getUniqueValues {l : List JsonValue} (hl : ∀ x ∈ l, wf x = true) :
    ∀ u ∈ getUniqueValues l, wf u = true :=
  fun u hu => hl u (mem_getUniqueValues hu)

theorem pairwise_getUniqueValues (l : List JsonValue) :
    List.Pairwise (fun u w => jeq u w = false) (getUniqueValues l) := by
  rw [getUniqueValues_eq_foldl]
  exact pairwise_foldl_uniqStep l [] List.Pairwise.nil

theorem existsInArray_getUniqueValues {v : JsonValue} (hv : wf v = true)
    {l : List JsonValue} (hl : ∀ x ∈ l, wf x = true) :
    existsInArray v (getUniqueValues l) = existsInArray v l := by
  rw [getUniqueValues_eq_foldl]
  rcases hcase : existsInArray v l with _ | _
  · rcases hres : existsInArray v (List.foldl uniqStep [] l) with _ | _
    · rfl
    · rcases (existsInArray_foldl_uniqStep hv l [] (by simp) hl).mp hres with habs | hl2
      · simp [existsInArray] at habs
      · rw [hl2] at hcase
        cases hcase
  · exact (existsInArray_foldl_uniqStep hv l [] (by simp) hl).mpr (Or.inr hcase)

/-- Two lists of pairwise `jeq`-unrelated well-formed values with the same
deep-equality span contain the same number of elements satisfying any
`jeq`-congruent predicate. -/
theorem countP_eq_of_span (p : JsonValue → Bool)
    (hp : ∀ a b, wf a = true → wf b = true → jeq a b = true → p a = p b) :
    ∀ (A B : List JsonValue), (∀ x ∈ A, wf x = true) → (∀ x ∈ B, wf x = true) →
    List.Pairwise (fun u w => jeq u w = false) A →
    List.Pairwise (fun u w => jeq u w = false) B →
    (∀ v, wf v = true → existsInArray v A = existsInArray v B) →
    A.countP p = B.countP p := by
  intro A
  induction A with
  | nil =>
    intro B _ hwB _ _ hspan
    cases B with
    | nil => rfl
    | cons b B2 =>
      exfalso
      have hb : existsInArray b (b :: B2) = true :=
        existsInArray_iff.mpr ⟨b, List.mem_cons_self _ _,
          jeq_refl b (hwB b (List.mem_cons_self _ _))⟩
      have := hspan b (hwB b (List.mem_cons_self _ _))
      rw [hb] at this
      simp [existsInArray] at this
  | cons a A' ih =>
    intro B hwA hwB hPA hPB hspan
    have hwa : wf a = true := hwA a (List.mem_cons_self _ _)
    have hwA' : ∀ x ∈ A', wf x = true := fun x hx => hwA x (List.mem_cons_of_mem _ hx)
    have hPA' : List.Pairwise (fun u w => jeq u w = false) A' := (List.pairwise_cons.mp hPA).2
    have haA' : ∀ u ∈ A', jeq a u = false := (List.pairwise_cons.mp hPA).1
    -- `a` is in the span of `B`
    have haB : existsInArray a B = true := by
      rw [← hspan a hwa]
      exact existsInArray_iff.mpr ⟨a, List.mem_cons_self _ _, jeq_refl a hwa⟩
    obtain ⟨b, hbB, hjba⟩ := existsInArray_iff.mp haB
    obtain ⟨B₁, B₂, rfl⟩ := List.append_of_mem hbB
    have hwb : wf b = true := hwB b hbB
    have hwB₁ : ∀ x ∈ B₁, wf x = true := fun x hx => hwB x (List.mem_append_left _ hx)
    have hwB₂ : ∀ x ∈ B₂, wf x = true :=
      fun x hx => hwB x (List.mem_append_right _ (List.mem_cons_of_mem _ hx))
    obtain ⟨hPB₁, hPbB₂, hcross⟩ := List.pairwise_append.mp hPB
    have hbB₂ : ∀ w ∈ B₂, jeq b w = false := (List.pairwise_cons.mp hPbB₂).1
    have hPB₂ : List.Pairwise (fun u w => jeq u w = false) B₂ := (List.pairwise_cons.mp hPbB₂).2
    have hB₁b : ∀ u ∈ B₁, jeq u b = false :=
      fun u hu => hcross u hu b (List.mem_cons_self _ _)
    have hPB' : List.Pairwise (fun u w => jeq u w = false) (B₁ ++ B₂) := by
      rw [List.pairwise_append]
      exact ⟨hPB₁, hPB₂, fun u hu w hw => hcross u hu w (List.mem_cons_of_mem _ hw)⟩
    have hwB' : ∀ x ∈ B₁ ++ B₂, wf x = true := by
      intro x hx
      rcases List.mem_append.mp hx with h | h
      · exact hwB₁ x h
      · exact hwB₂ x h
    -- spans of `A'` and `B₁ ++ B₂` agree
    have hspan' : ∀ v, wf v = true → existsInArray v A' = existsInArray v (B₁ ++ B₂) := by
      intro v hv
      have key : (∃ u ∈ A', jeq u v = true) ↔ ∃ u ∈ B₁ ++ B₂, jeq u v = true := by
        constructor
        · rintro ⟨u, huA', hjuv⟩
          have hwu : wf u = true := hwA' u huA'
          have hnav : jeq a v = false := by
            by_cases hav : jeq a v = true
            · exfalso
              have hjau : jeq a u = true :=
                jeq_trans hwa hv hwu hav (jeq_symm hwu hv hjuv)
              rw [haA' u huA'] at hjau
              cases hjau
            · simpa using hav
          have hvB : existsInArray v (B₁ ++ b :: B₂) = true := by
            rw [← hspan v hv]
            exact existsInArray_iff.mpr ⟨u, List.mem_cons_of_mem _ huA', hjuv⟩
          obtain ⟨c, hcB, hjcv⟩ := existsInArray_iff.mp hvB
          rcases List.mem_append.mp hcB with hc1 | hc2
          · exact ⟨c, List.mem_append_left _ hc1, hjcv⟩
          · rcases List.mem_cons.mp hc2 with rfl | hc3
            · exfalso
              have hjav : jeq a v = true :=
                jeq_trans hwa hwb hv (jeq_symm hwb hwa hjba) hjcv
              rw [hjav] at hnav
              cases hnav
            · exact ⟨c, List.mem_append_right _ hc3, hjcv⟩
        · rintro ⟨u, huB', hjuv⟩
          have hwu : wf u = true := hwB' u huB'
          have hvA : existsInArray v (a :: A') = true := by
            rw [hspan v hv]
            refine existsInArray_iff.mpr ⟨u, ?_, hjuv⟩
            rcases List.mem_append.mp huB' with h | h
            · exact List.mem_append_left _ h
            · exact List.mem_append_right _ (List.mem_cons_of_mem _ h)
          obtain ⟨w, hwmem, hjwv⟩ := existsInArray_iff.mp hvA
          rcases List.mem_cons.mp hwmem with rfl | hw3
          · exfalso
            -- u is jeq-related to b, contradicting pairwise-unrelatedness of B
            have hjbv : jeq b v = true := jeq_trans hwb hwa hv hjba hjwv
            have hjub : jeq u b = true :=
              jeq_trans hwu hv hwb hjuv (jeq_symm hwb hv hjbv)
            rcases List.mem_append.mp huB' with h | h
            · rw [hB₁b u h] at hjub
              cases hjub
            · have := hbB₂ u h
              rw [jeq_symm hwu hwb hjub] at this
              cases this
          · exact ⟨w, hw3, hjwv⟩
      rcases hA' : existsInArray v A' with _ | _
      · rcases hB' : existsInArray v (B₁ ++ B₂) with _ | _
        · rfl
        · obtain ⟨u, hu, hj⟩ := existsInArray_iff.mp hB'
          have := existsInArray_iff.mpr (key.mpr ⟨u, hu, hj⟩)
          rw [hA'] at this
          cases this
      · obtain ⟨u, hu, hj⟩ := existsInArray_iff.mp hA'
        have := existsInArray_iff.mpr (key.mp ⟨u, hu, hj⟩)
        rw [this]
    have hcount := ih (B₁ ++ B₂) hwA' hwB' hPA' hPB' hspan'
    have hpab : p a = p b := (hp b a hwb hwa hjba).symm
    rw [List.countP_cons, List.countP_append, List.countP_cons, hcount, List.countP_append, hpab]
    omega

theorem existsInArray_congr {a b : JsonValue} (ha : wf a = true) (hb : wf b = true)
    (hj : jeq a b = true) {l : List JsonValue} (hl : ∀ x ∈ l, wf x = true) :
    existsInArray a l = existsInArray b l := by
  rw [Bool.eq_iff_iff, existsInArray_iff, existsInArray_iff]
  constructor
  · rintro ⟨u, hu, h⟩
    exact ⟨u, hu, jeq_trans (hl u hu) ha hb h hj⟩
  · rintro ⟨u, hu, h⟩
    exact ⟨u, hu, jeq_trans (hl u hu) hb ha h (jeq_symm ha hb hj)⟩

theorem existsInArray_perm {l l' : List JsonValue} (h : List.Perm l l') (v : JsonValue) :
    existsInArray v l = existsInArray v l' := by
  rw [Bool.eq_iff_iff, existsInArray_iff, existsInArray_iff]
  constructor
  · rintro ⟨u, hu, hj⟩
    exact ⟨u, h.mem_iff.mp hu, hj⟩
  · rintro ⟨u, hu, hj⟩
    exact ⟨u, h.mem_iff.mpr hu, hj⟩

theorem existsInArray_cons_of_mem {x : JsonValue} {l : List JsonValue} (hx : x ∈ l)
    (v : JsonValue) : existsInArray v (x :: l) = existsInArray v l := by
  rw [Bool.eq_iff_iff, existsInArray_iff, existsInArray_iff]
  constructor
  · rintro ⟨u, hu, hj⟩
    rcases List.mem_cons.mp hu with rfl | hrest
    · exact ⟨u, hx, hj⟩
    · exact ⟨u, hrest, hj⟩
  · rintro ⟨u, hu, hj⟩
    exact ⟨u, List.mem_cons_of_mem _ hu, hj⟩

/-- `compareArraysAsSet` depends on each input array only through its
deep-equality span: two pairs of well-formed arrays with matching spans
produce identical metrics. -/
theorem compareArraysAsSet_span_congr (xs xs' ys ys' : List JsonValue)
    (hwxs : ∀ x ∈ xs, wf x = true) (hwxs' : ∀ x ∈ xs', wf x = true)
    (hwys : ∀ y ∈ ys, wf y = true) (hwys' : ∀ y ∈ ys', wf y = true)
    (hx : ∀ v, wf v = true → existsInArray v xs = existsInArray v xs')
    (hy : ∀ v, wf v = true → existsInArray v ys = existsInArray v ys') :
    compareArraysAsSet xs ys = compareArraysAsSet xs' ys' := by
  have hwUx := wf_getUniqueValues hwxs
  have hwUx' := wf_getUniqueValues hwxs'
  have hwUy := wf_getUniqueValues hwys
  have hwUy' := wf_getUniqueValues hwys'
  have spanUx : ∀ v, wf v = true →
      existsInArray v (getUniqueValues xs) = existsInArray v (getUniqueValues xs') := by
    intro v hv
    rw [existsInArray_getUniqueValues hv hwxs, existsInArray_getUniqueValues hv hwxs', hx v hv]
  have spanUy : ∀ v, wf v = true →
      existsInArray v (getUniqueValues ys) = existsInArray v (getUniqueValues ys') := by
    intro v hv
    rw [existsInArray_getUniqueValues hv hwys, existsInArray_getUniqueValues hv hwys', hy v hv]
  have hET : (getUniqueValues xs).length = (getUniqueValues xs').length := by
    rw [← List.countP_true (α := JsonValue)]
    exact countP_eq_of_span (fun _ => true) (fun _ _ _ _ _ => rfl) _ _ hwUx hwUx'
      (pairwise_getUniqueValues xs) (pairwise_getUniqueValues xs') spanUx
  have hEF : (getUniqueValues xs).countP (fun e => existsInArray e (getUniqueValues ys))
      = (getUniqueValues xs').countP (fun e => existsInArray e (getUniqueValues ys')) := by
    have step1 : (getUniqueValues xs).countP (fun e => existsInArray e (getUniqueValues ys))
        = (getUniqueValues xs').countP (fun e => existsInArray e (getUniqueValues ys)) :=
      countP_eq_of_span _ (fun a b hwa hwb hj => existsInArray_congr hwa hwb hj hwUy)
        _ _ hwUx hwUx' (pairwise_getUniqueValues xs) (pairwise_getUniqueValues xs') spanUx
    rw [step1]
    refine List.countP_congr (fun e he => ?_)
    rw [spanUy e (hwUx' e he)]
  have hUC : (getUniqueValues ys).countP (fun a => !existsInArray a (getUniqueValues xs))
      = (getUniqueValues ys').countP (fun a => !existsInArray a (getUniqueValues xs')) := by
    have step1 : (getUniqueValues ys).countP (fun a => !existsInArray a (getUniqueValues xs))
        = (getUniqueValues ys').countP (fun a => !existsInArray a (getUniqueValues xs)) :=
      countP_eq_of_span _
        (fun a b hwa hwb hj => by rw [existsInArray_congr hwa hwb hj hwUx])
        _ _ hwUy hwUy' (pairwise_getUniqueValues ys) (pairwise_getUniqueValues ys') spanUy
    rw [step1]
    refine List.countP_congr (fun e he => ?_)
    rw [spanUx e (hwUy' e he)]
  simp only [compareArraysAsSet, Metrics.mk.injEq]
  exact ⟨hEF, hET, hUC⟩

theorem compareJSON_score_congr_arr {xs xs' ys ys' : List JsonValue}
    (h : compareArraysAsSet xs ys = compareArraysAsSet xs' ys') :
    (compareJSON (.arr xs) (.arr ys)).score = (compareJSON (.arr xs') (.arr ys')).score := by
  simp only [compareJSON, calculateMetrics, h]

/-! ### Claim C2: set semantics of array comparison -/

/-- Claim C2: array comparison uses set semantics. Permuting either array, or
prepending a duplicate (by deep equality) of one of its elements, changes
neither the metrics returned by `compareArraysAsSet` (`expectedFound`,
`expectedTotal`, `unexpectedCount`/`unexpectedFound`) nor the score of
`compareJSON`; in particular comparing `[1,1,2]` with `[2,1]` returns the same
metrics, score and `isEqual` as comparing `[1,2]` with `[2,1]`. -/
theorem claim_C2_array_set_semantics :
    (∀ xs xs' ys : List JsonValue,
        wfList xs = true → wfList xs' = true → wfList ys = true → List.Perm xs xs' →
        compareArraysAsSet xs' ys = compareArraysAsSet xs ys
          ∧ (compareJSON (.arr xs') (.arr ys)).score = (compareJSON (.arr xs) (.arr ys)).score)
    ∧ (∀ xs ys ys' : List JsonValue,
        wfList xs = true → wfList ys = true → wfList ys' = true → List.Perm ys ys' →
        compareArraysAsSet xs ys' = compareArraysAsSet xs ys
          ∧ (compareJSON (.arr xs) (.arr ys')).score = (compareJSON (.arr xs) (.arr ys)).score)
    ∧ (∀ (x : JsonValue) (xs ys : List JsonValue),
        wfList xs = true → wfList ys = true → x ∈ xs →
        compareArraysAsSet (x :: xs) ys = compareArraysAsSet xs ys
          ∧ (compareJSON (.arr (x :: xs)) (.arr ys)).score
              = (compareJSON (.arr xs) (.arr ys)).score)
    ∧ (∀ (y : JsonValue) (xs ys : List JsonValue),
        wfList xs = true → wfList ys = true → y ∈ ys →
        compareArraysAsSet xs (y :: ys) = compareArraysAsSet xs ys
          ∧ (compareJSON (.arr xs) (.arr (y :: ys))).score
              = (compareJSON (.arr xs) (.arr ys)).score)
    ∧ (calculateMetrics (.arr [.num 1, .num 1, .num 2]) (.arr [.num 2, .num 1])
          = calculateMetrics (.arr [.num 1, .num 2]) (.arr [.num 2, .num 1])
        ∧ (compareJSON (.arr [.num 1, .num 1, .num 2]) (.arr [.num 2, .num 1])).score
          = (compareJSON (.arr [.num 1, .num 2]) (.arr [.num 2, .num 1])).score
        ∧ (compareJSON (.arr [.num 1, .num 1, .num 2]) (.arr [.num 2, .num 1])).isEqual
          = (compareJSON (.arr [.num 1, .num 2]) (.arr [.num 2, .num 1])).isEqual) := by
  refine ⟨?_, ?_, ?_, ?_, ?_⟩
  · intro xs xs' ys hwxs hwxs' hwys hperm
    have h := compareArraysAsSet_span_congr xs' xs ys ys
      (wfList_iff.mp hwxs') (wfList_iff.mp hwxs) (wfList_iff.mp hwys) (wfList_iff.mp hwys)
      (fun v _ => existsInArray_perm hperm.symm v) (fun _ _ => rfl)
    exact ⟨h, compareJSON_score_congr_arr h⟩
  · intro xs ys ys' hwxs hwys hwys' hperm
    have h := compareArraysAsSet_span_congr xs xs ys' ys
      (wfList_iff.mp hwxs) (wfList_iff.mp hwxs) (wfList_iff.mp hwys') (wfList_iff.mp hwys)
      (fun _ _ => rfl) (fun v _ => existsInArray_perm hperm.symm v)
    exact ⟨h, compareJSON_score_congr_arr h⟩
  · intro x xs ys hwxs hwys hx
    have hwx : wf x = true := wfList_iff.mp hwxs x hx
    have hwcons : ∀ u ∈ x :: xs, wf u = true := by
      intro u hu
      rcases List.mem_cons.mp hu with rfl | hrest
      · exact hwx
      · exact wfList_iff.mp hwxs u hrest
    have h := compareArraysAsSet_span_congr (x :: xs) xs ys ys
      hwcons (wfList_iff.mp hwxs) (wfList_iff.mp hwys) (wfList_iff.mp hwys)
      (fun v _ => existsInArray_cons_of_mem hx v) (fun _ _ => rfl)
    exact ⟨h, compareJSON_score_congr_arr h⟩
  · intro y xs ys hwxs hwys hy
    have hwy : wf y = true := wfList_iff.mp hwys y hy
    have hwcons : ∀ u ∈ y :: ys, wf u = true := by
      intro u hu
      rcases List.mem_cons.mp hu with rfl | hrest
      · exact hwy
      · exact wfList_iff.mp hwys u hrest
    have h := compareArraysAsSet_span_congr xs xs (y :: ys) ys
      (wfList_iff.mp hwxs) (wfList_iff.mp hwxs) hwcons (wfList_iff.mp hwys)
      (fun _ _ => rfl) (fun v _ => existsInArray_cons_of_mem hy v)
    exact ⟨h, compareJSON_score_congr_arr h⟩
  · have hm : calculateMetrics (.arr [.num 1, .num 1, .num 2]) (.arr [.num 2, .num 1])
        = calculateMetrics (.arr [.num 1, .num 2]) (.arr [.num 2, .num 1]) := by decide
    exact ⟨hm, by simp only [compareJSON, hm], by simp only [compareJSON, hm]⟩

/-- Witness for claim C2: permuting the expected array `[1,2]` to `[2,1]`
leaves the comparison against `[1]` unchanged. -/
theorem claim_C2_array_set_semantics_witness :
    compareArraysAsSet [JsonValue.num 2, JsonValue.num 1] [JsonValue.num 1]
        = compareArraysAsSet [JsonValue.num 1, JsonValue.num 2] [JsonValue.num 1]
      ∧ (compareJSON (.arr [JsonValue.num 2, JsonValue.num 1])
            (.arr [JsonValue.num 1])).score
        = (compareJSON (.arr [JsonValue.num 1, JsonValue.num 2])
            (.arr [JsonValue.num 1])).score :=
  claim_C2_array_set_semantics.1 [JsonValue.num 1, JsonValue.num 2]
    [JsonValue.num 2, JsonValue.num 1] [JsonValue.num 1]
    (by decide) (by decide) (by decide) (List.Perm.swap _ _ _)

/-! ### The JSON-Schema subset validator of `test-runner.ts` -/

/-- The `type` field of a schema: a single type name or an array of names. -/
inductive SchemaType where
  | one (s : String)
  | many (ss : List String)

/-- The `JsonSchema` record type of `test-runner.ts`. `additionalProperties`
is `boolean | JsonSchema`, modelled as a sum. Fields absent from a schema
object are `none`. -/
structure JsonSchemaM where
  type : Option SchemaType := none
  properties : Option (List (String × JsonSchemaM)) := none
  required : Option (List String) := none
  items : Option JsonSchemaM := none
  enum : Option (List JsonValue) := none
  const : Option JsonValue := none
  additionalProperties : Option (Sum Bool JsonSchemaM) := none
  minItems : Option Nat := none
  maxItems : Option Nat := none
  minLength : Option Nat := none
  maxLength : Option Nat := none
  minimum : Option ℚ := none
  maximum : Option ℚ := none
  pattern : Option String := none
  oneOf : Option (List JsonSchemaM) := none
  anyOf : Option (List JsonSchemaM) := none
  allOf : Option (List JsonSchemaM) := none

/-- `getValueType` of `test-runner.ts`: `null`, `array`, or `typeof`. -/
def getValueType : JsonValue → String
  | .null => "null"
  | .arr _ => "array"
  | .obj _ => "object"
  | .str _ => "string"
  | .num _ => "number"
  | .bool _ => "boolean"

/-- `matchesType` of `test-runner.ts`. JS `NaN` has no counterpart in the
rational model of numbers, so the `Number.isNaN` guard is vacuous;
`Number.isInteger` is a denominator-1 check. Unknown type names match
everything (the `default: return true` branch). -/
def matchesType (value : JsonValue) (schemaType : String) : Bool :=
  match schemaType with
  | "string" => (match value with | .str _ => true | _ => false)
  | "number" => (match value with | .num _ => true | _ => false)
  | "integer" => (match value with | .num q => q.den == 1 | _ => false)
  | "boolean" => (match value with | .bool _ => true | _ => false)
  | "null" => (match value with | .null => true | _ => false)
  | "array" => (match value with | .arr _ => true | _ => false)
  | "object" => (match value with | .obj _ => true | _ => false)
  | _ => true

/-- `schemaHasType` of `test-runner.ts`, on the schema's `type` field.
(In JS an empty-string `type` is falsy and yields `false`; an empty-string
comparison against the concrete type names used by the validator is also
`false`, so the `Option` model is faithful.) -/
def schemaHasType (t : Option SchemaType) (schemaType : String) : Bool :=
  match t with
  | none => false
  | some (.one s) => s == schemaType
  | some (.many ss) => ss.contains schemaType

/-- `validateJsonSchema` of `test-runner.ts`, with explicit fuel: the fuel is
consumed once per descent into a subschema, and the wrapper below supplies
`sizeOf schema`, which bounds the nesting depth of any schema, so the
fuel-exhaustion branch is unreachable. The JS regex engine used for the
`pattern` check is an external runtime facility, modelled by the parameter
`rt` (`none` models a pattern whose compilation throws). Early `return`s of
the source become the non-continuing branches. -/
def validateJsonSchemaFuel (rt : String → String → Option Bool) :
    Nat → JsonSchemaM → JsonValue → String → List String
  | 0, _, _, _ => []
  | fuel + 1, schema, value, path =>
    match schema.allOf with
    | some subs => (subs.map (fun sub => validateJsonSchemaFuel rt fuel sub value path)).flatten
    | none =>
    match schema.anyOf with
    | some subs =>
        if (subs.map (fun sub => validateJsonSchemaFuel rt fuel sub value path)).any
            List.isEmpty
        then []
        else [path ++ ": Value does not match anyOf schemas"]
    | none =>
    match schema.oneOf with
    | some subs =>
        if (subs.map (fun sub => validateJsonSchemaFuel rt fuel sub value path)).countP
            List.isEmpty == 1
        then []
        else [path ++ ": Value does not match exactly one schema in oneOf"]
    | none =>
      let stringAndNumberChecks : List String → List String := fun acc =>
        acc
          ++ (if schemaHasType schema.type "string" then
                match value with
                | .str s =>
                    (match schema.minLength with
                     | some m => if s.length < m then
                          [path ++ ": Expected at least " ++ toString m ++ " characters"]
                        else []
                     | none => [])
                    ++ (match schema.maxLength with
                        | some m => if s.length > m then
                            [path ++ ": Expected at most " ++ toString m ++ " characters"]
                          else []
                        | none => [])
                    ++ (match schema.pattern with
                        | some p =>
                            if p == "" then []
                            else
                              match rt p s with
                              | some true => []
                              | some false => [path ++ ": Value does not match pattern " ++ p]
                              | none => [path ++ ": Invalid regex pattern in schema"]
                        | none => [])
                | _ => []
              else [])
          ++ (if schemaHasType schema.type "number" || schemaHasType schema.type "integer" then
                match value with
                | .num q =>
                    (match schema.minimum with
                     | some m => if q < m then [path ++ ": Expected number >= " ++ toString m]
                        else []
                     | none => [])
                    ++ (match schema.maximum with
                        | some m => if q > m then [path ++ ": Expected number <= " ++ toString m]
                          else []
                        | none => [])
                | _ => []
              else [])
      let arrayChecks : List String → List String := fun acc =>
        if schemaHasType schema.type "array" || schema.items.isSome then
          match value with
          | .arr xs =>
              stringAndNumberChecks
                (acc
                  ++ (match schema.minItems with
                      | some m => if xs.length < m then
                          [path ++ ": Expected at least " ++ toString m ++ " items"]
                        else []
                      | none => [])
                  ++ (match schema.maxItems with
                      | some m => if xs.length > m then
                          [path ++ ": Expected at most " ++ toString m ++ " items"]
                        else []
                      | none => [])
                  ++ (match schema.items with
                      | some itemSchema =>
                          (xs.enum.map (fun p =>
                            validateJsonSchemaFuel rt fuel itemSchema p.2
                              (path ++ "[" ++ toString p.1 ++ "]"))).flatten
                      | none => []))
          | _ => acc ++ [path ++ ": Expected array"]
        else stringAndNumberChecks acc
      let objectChecks : Unit → List String := fun _ =>
        if schemaHasType schema.type "object" || schema.properties.isSome
            || schema.required.isSome then
          match value with
          | .null => arrayChecks []
          | .obj fields =>
              arrayChecks
                (((schema.required.getD []).filterMap (fun key =>
                    if (lookupField key fields).isSome then none
                    else some (path ++ "." ++ key ++ ": Missing required property")))
                  ++ ((schema.properties.getD []).map (fun p =>
                        match lookupField p.1 fields with
                        | some childValue =>
                            validateJsonSchemaFuel rt fuel p.2 childValue (path ++ "." ++ p.1)
                        | none => [])).flatten
                  ++ (match schema.additionalProperties with
                      | some (Sum.inl false) =>
                          fields.filterMap (fun f =>
                            if ((schema.properties.getD []).map Prod.fst).contains f.1 then none
                            else some (path ++ "." ++ f.1 ++ ": Unexpected property"))
                      | some (Sum.inr sub) =>
                          (fields.map (fun f =>
                            if ((schema.properties.getD []).map Prod.fst).contains f.1 then []
                            else validateJsonSchemaFuel rt fuel sub f.2
                              (path ++ "." ++ f.1))).flatten
                      | _ => []))
          | _ => [path ++ ": Expected object"]
        else arrayChecks []
      let typeCheck : Unit → List String := fun _ =>
        match schema.type with
        | some st =>
            let types := (match st with | .one s => [s] | .many ss => ss)
            if types.any (fun t => matchesType value t) then objectChecks ()
            else [path ++ ": Expected type " ++ String.intercalate "|" types ++ ", received "
                    ++ getValueType value]
        | none => objectChecks ()
      let enumCheck : Unit → List String := fun _ =>
        match schema.enum with
        | some items =>
            if items.any (fun item => jeq item value) then typeCheck ()
            else [path ++ ": Value does not match enum"]
        | none => typeCheck ()
      match schema.const with
      | some c => if jeq c value then enumCheck () else [path ++ ": Value does not match const"]
      | none => enumCheck ()

mutual

/-- Number of schema nodes of a schema, used as the fuel bound of the
validator: every recursive call of the source descends into a strictly
smaller subschema, so this bound makes the fuel-exhaustion branch
unreachable. -/
def schemaSize : JsonSchemaM → Nat
  | .mk _ props _ items _ _ addProps _ _ _ _ _ _ _ oneOfs anyOfs allOfs =>
      1 + schemaSizePropsOpt props + schemaSizeOpt items + schemaSizeAdd addProps
        + schemaSizeListOpt oneOfs + schemaSizeListOpt anyOfs + schemaSizeListOpt allOfs

/-- Total size of an optional `properties` map. -/
def schemaSizePropsOpt : Option (List (String × JsonSchemaM)) → Nat
  | none => 0
  | some l => schemaSizeProps l

/-- Total size of a `properties` map. -/
def schemaSizeProps : List (String × JsonSchemaM) → Nat
  | [] => 0
  | (_, s) :: rest => schemaSize s + schemaSizeProps rest

/-- Total size of an optional subschema. -/
def schemaSizeOpt : Option JsonSchemaM → Nat
  | none => 0
  | some s => schemaSize s

/-- Total size of an `additionalProperties` field. -/
def schemaSizeAdd : Option (Sum Bool JsonSchemaM) → Nat
  | some (Sum.inr s) => schemaSize s
  | _ => 0

/-- Total size of an optional combinator list. -/
def schemaSizeListOpt : Option (List JsonSchemaM) → Nat
  | none => 0
  | some l => schemaSizeList l

/-- Total size of a combinator list. -/
def schemaSizeList : List JsonSchemaM → Nat
  | [] => 0
  | s :: rest => schemaSize s + schemaSizeList rest

end

theorem schemaSize_pos (s : JsonSchemaM) : 0 < schemaSize s := by
  cases s
  simp only [schemaSize]
  omega

/-- `validateJsonSchema(schema, value, path)` of `test-runner.ts` (the path
defaults to `"$"` at call sites). -/
def validateJsonSchema (rt : String → String → Option Bool) (schema : JsonSchemaM)
    (value : JsonValue) (path : String) : List String :=
  validateJsonSchemaFuel rt (schemaSize schema) schema value path

/-- A schema object with every field absent. -/
def emptySchema : JsonSchemaM :=
  ⟨none, none, none, none, none, none, none, none, none, none, none, none, none, none,
    none, none, none⟩

/-- The schema `{type:"object", required:["a"], properties:{a:{type:"number"}}}`
of claim C4. -/
def schemaC4 : JsonSchemaM :=
  { emptySchema with
      type := some (.one "object")
      required := some ["a"]
      properties := some [("a", { emptySchema with type := some (.one "number") })] }

/-! ### Claim C4: the concrete required-property schema -/

/-- Claim C4: validating `{type:"object", required:["a"],
properties:{a:{type:"number"}}}` against `{a:1}` produces zero violations, and
against `{}` produces exactly one violation, whose message identifies the
missing required property `a`. (The result does not depend on the regex
facility `rt`, which the schema never consults.) -/
theorem claim_C4_required_property_schema : ∀ rt : String → String → Option Bool,
    validateJsonSchema rt schemaC4 (JsonValue.obj [("a", JsonValue.num 1)]) "$" = []
    ∧ validateJsonSchema rt schemaC4 (JsonValue.obj []) "$"
        = ["$.a: Missing required property"] :=
  fun _rt => ⟨rfl, rfl⟩

/-! ### Claim C5: non-object values under `properties`/`required` -/

/-- Counterexample to claim C5 as stated: the schema `{required:["a"]}`
declares `required` without declaring type `"object"`, and validating the
value `null` against it produces no violation at all, because the object
check of `validateJsonSchema` is guarded by `value !== null`. -/
theorem claim_C5_counterexample :
    validateJsonSchema (fun _ _ => none) { emptySchema with required := some ["a"] }
      JsonValue.null "$" = [] := by decide

/-- Claim C5 as amended: for every schema that declares `properties` or
`required` but none of `allOf`/`anyOf`/`oneOf`/`const`/`enum`/`type`,
validating any non-null value that is not a non-array object (arrays and
non-null primitives) produces exactly one violation, reporting that an
object was expected; a `null` value skips the object check entirely. -/
theorem claim_C5_expected_object_violation (rt : String → String → Option Bool)
    (s : JsonSchemaM) (v : JsonValue) (path : String)
    (hallOf : s.allOf = none) (hanyOf : s.anyOf = none) (honeOf : s.oneOf = none)
    (hconst : s.const = none) (henum : s.enum = none) (htype : s.type = none)
    (htrig : (s.properties.isSome || s.required.isSome) = true)
    (hnull : v ≠ JsonValue.null) (hobj : ∀ fs, v ≠ JsonValue.obj fs) :
    validateJsonSchema rt s v path = [path ++ ": Expected object"] := by
  obtain ⟨m, hm⟩ : ∃ m, schemaSize s = m + 1 :=
    ⟨schemaSize s - 1, by have := schemaSize_pos s; omega⟩
  unfold validateJsonSchema
  rw [hm]
  cases v with
  | null => exact absurd rfl hnull
  | obj fs => exact absurd rfl (hobj fs)
  | bool b =>
    simp only [validateJsonSchemaFuel, hallOf, hanyOf, honeOf, hconst, henum, htype,
      schemaHasType, Bool.false_or, htrig, if_true]
  | num q =>
    simp only [validateJsonSchemaFuel, hallOf, hanyOf, honeOf, hconst, henum, htype,
      schemaHasType, Bool.false_or, htrig, if_true]
  | str t =>
    simp only [validateJsonSchemaFuel, hallOf, hanyOf, honeOf, hconst, henum, htype,
      schemaHasType, Bool.false_or, htrig, if_true]
  | arr xs =>
    simp only [validateJsonSchemaFuel, hallOf, hanyOf, honeOf, hconst, henum, htype,
      schemaHasType, Bool.false_or, htrig, if_true]

/-- Witness for the amended claim C5 at a concrete input: the schema
`{required:["a"]}` against the number `5`. -/
theorem claim_C5_expected_object_violation_witness :
    validateJsonSchema (fun _ _ => none) { emptySchema with required := some ["a"] }
      (JsonValue.num 5) "$" = ["$" ++ ": Expected object"] :=
  claim_C5_expected_object_violation (fun _ _ => none)
    { emptySchema with required := some ["a"] } (JsonValue.num 5) "$"
    rfl rfl rfl rfl rfl rfl rfl (fun h => JsonValue.noConfusion h)
    (fun _fs h => JsonValue.noConfusion h)

/-! ### The LLM grader (`evaluateWithLLM` of `test-runner.ts`) -/

/-- `countWords` of `test-runner.ts`: the length of `trimmed.split(/\s+/)` for
non-empty trimmed text. On trimmed text, splitting on whitespace runs equals
splitting on whitespace characters and discarding empty fragments. -/
def countWords (text : String) : Nat :=
  let trimmed := text.trim
  if trimmed = "" then 0
  else ((trimmed.split (fun c => c.isWhitespace)).filter (fun w => w ≠ "")).length

/-- The result record shared by the evaluation paths of `test-runner.ts`
(`EvaluationResult`). -/
structure EvaluationResult where
  isCorrect : Bool
  score : ℚ
  expectedFound : Nat
  expectedTotal : Nat
  unexpectedFound : Nat
  evaluationReason : Option String
  error : Option String
  deriving Repr

/-- Outcome of one call to an external capability (`client.complete`): the
value it resolved with, or the message of the error it threw. -/
inductive CapabilityOutcome where
  | ok (response : JsonValue)
  | err (message : String)

/-- The strict response-shape check `evaluationResponseSchema.safeParse` of
`test-runner.ts` (a `zod` object schema): the response must be a plain object
with a numeric `score` in `[0,1]` and a string `reason` that, after trimming,
is non-empty and at most 100 words; the decoded reason is the trimmed
string. Any other shape is rejected. -/
def decodeEvaluationResponse : JsonValue → Option (ℚ × String)
  | .obj fields =>
      match lookupField "score" fields, lookupField "reason" fields with
      | some (.num q), some (.str s) =>
          if 0 ≤ q then
            if q ≤ 1 then
              let r := s.trim
              if r = "" then none
              else if countWords r ≤ 100 then some (q, r) else none
            else none
          else none
      | _, _ => none
  | _ => none

/-- `evaluateWithLLM` of `test-runner.ts`. The construction of the evaluation
prompt strings is elided: they only feed the grading capability, which is
replaced by the explicit `outcome` parameter; `configured` is
`openaiClient.isConfigured()`. The function is total — every failure mode
produces a zero-score result rather than an exception. -/
def evaluateWithLLM (configured : Bool) (outcome : CapabilityOutcome) : EvaluationResult :=
  if !configured then
    { isCorrect := false, score := 0, expectedFound := 0, expectedTotal := 0
      unexpectedFound := 0
      evaluationReason := some "OpenAI API key not configured for LLM evaluation"
      error := some "OpenAI API key not configured for LLM evaluation" }
  else
    match outcome with
    | .err msg =>
        { isCorrect := false, score := 0, expectedFound := 0, expectedTotal := 0
          unexpectedFound := 0, evaluationReason := some msg, error := some msg }
    | .ok response =>
        match decodeEvaluationResponse response with
        | none =>
            { isCorrect := false, score := 0, expectedFound := 0, expectedTotal := 0
              unexpectedFound := 0
              evaluationReason := some "Evaluation model returned invalid JSON"
              error := some "Evaluation model returned invalid JSON" }
        | some (q, reason) =>
            { isCorrect := q == 1, score := q, expectedFound := 0, expectedTotal := 0
              unexpectedFound := 0, evaluationReason := some reason, error := none }

/-! ### Claim C6: the LLM grader fails closed -/

/-- Claim C6: the LLM grader fails closed. Every failure — grading capability
unconfigured, the capability call throwing, or a response rejected by the
strict shape check — yields score 0, `isCorrect = false` and the error
captured as the reason (the function is total, so no exception escapes); and
every response the shape check accepts has a numeric score in `[0,1]` and a
non-empty reason of at most 100 words. -/
theorem claim_C6_llm_grader_fails_closed :
    (∀ (cfg : Bool) (out : CapabilityOutcome),
        cfg = false ∨ (∃ m, out = .err m)
          ∨ (∃ v, out = .ok v ∧ decodeEvaluationResponse v = none) →
        (evaluateWithLLM cfg out).score = 0
          ∧ (evaluateWithLLM cfg out).isCorrect = false
          ∧ (evaluateWithLLM cfg out).error = (evaluateWithLLM cfg out).evaluationReason
          ∧ (evaluateWithLLM cfg out).error ≠ none)
    ∧ (∀ (v : JsonValue) (q : ℚ) (r : String), decodeEvaluationResponse v = some (q, r) →
        0 ≤ q ∧ q ≤ 1 ∧ r ≠ "" ∧ countWords r ≤ 100) := by
  constructor
  · rintro cfg out (rfl | ⟨m, rfl⟩ | ⟨v, rfl, hdec⟩)
    · exact ⟨rfl, rfl, rfl, by simp [evaluateWithLLM]⟩
    · cases cfg <;> simp [evaluateWithLLM]
    · cases cfg <;> simp [evaluateWithLLM, hdec]
  · intro v q r h
    cases v with
    | obj fields =>
      simp only [decodeEvaluationResponse] at h
      cases hs : lookupField "score" fields with
      | none => rw [hs] at h; simp at h
      | some sv =>
        rw [hs] at h
        cases hr : lookupField "reason" fields with
        | none =>
          rw [hr] at h
          cases sv <;> simp at h
        | some rv =>
          rw [hr] at h
          cases sv <;> cases rv <;> simp only [] at h <;> try exact Option.noConfusion h
          rename_i qv sv2
          split_ifs at h with h0 h1 h2 h3
          · simp only [Option.some.injEq, Prod.mk.injEq] at h
            obtain ⟨rfl, rfl⟩ := h
            exact ⟨h0, h1, h2, h3⟩
    | null => exact Option.noConfusion h
    | bool b => exact Option.noConfusion h
    | num n => exact Option.noConfusion h
    | str s => exact Option.noConfusion h
    | arr xs => exact Option.noConfusion h

/-- Witness for claim C6: a throwing capability call yields the fail-closed
result. -/
theorem claim_C6_llm_grader_fails_closed_witness :
    (evaluateWithLLM true (.err "boom")).score = 0
      ∧ (evaluateWithLLM true (.err "boom")).isCorrect = false
      ∧ (evaluateWithLLM true (.err "boom")).error
          = (evaluateWithLLM true (.err "boom")).evaluationReason
      ∧ (evaluateWithLLM true (.err "boom")).error ≠ none :=
  claim_C6_llm_grader_fails_closed.1 true (.err "boom") (Or.inr (Or.inl ⟨"boom", rfl⟩))

/-! ### The evaluation dispatcher and run orchestrator of `test-runner.ts` -/

/-- `normalizeEvaluationMode` of `test-runner.ts`: only `"llm"` and
`"schema"` are recognized; anything else (absent or unrecognized) is
`undefined`. -/
def normalizeEvaluationMode : Option String → Option String
  | some "llm" => some "llm"
  | some "schema" => some "schema"
  | _ => none

/-- `hasText` of `test-runner.ts`: a string with non-whitespace content. -/
def hasText : Option String → Bool
  | some s => s.trim != ""
  | none => false

/-- `getSkippedEvaluationResult` of `test-runner.ts`: the result used
whenever evaluation is skipped — it counts as fully correct. -/
def getSkippedEvaluationResult : EvaluationResult :=
  { isCorrect := true, score := 1, expectedFound := 0, expectedTotal := 0, unexpectedFound := 0
    evaluationReason := some "Evaluation skipped", error := none }

/-- `evaluateWithSchema` of `test-runner.ts`. `JSON.parse` of the schema text
(together with the duck-typed `as JsonSchema` cast) and `JSON.parse` of a
string output are JS runtime facilities, modelled by the parameters
`parseSchema` and `jsParse` (`none` models a parse exception). On a
validation failure the reason joins the first five violations with `"; "`
(the single `zod` issue produced by `buildJsonSchemaValidator`). -/
def evaluateWithSchema (rt : String → String → Option Bool)
    (parseSchema : String → Option JsonSchemaM) (jsParse : String → Option JsonValue)
    (evaluationSchema : String) (output : JsonValue) : EvaluationResult :=
  match parseSchema evaluationSchema with
  | none =>
      { isCorrect := false, score := 0, expectedFound := 0, expectedTotal := 0
        unexpectedFound := 0
        evaluationReason := some "Evaluation schema is not valid JSON"
        error := some "Evaluation schema is not valid JSON" }
  | some schema =>
      let outputValue :=
        match output with
        | .str s => (jsParse s).getD (.str s)
        | v => v
      let errors := validateJsonSchema rt schema outputValue "$"
      if errors.isEmpty then
        { isCorrect := true, score := 1, expectedFound := 1, expectedTotal := 1
          unexpectedFound := 0
          evaluationReason := some "Matches evaluation schema", error := none }
      else
        { isCorrect := false, score := 0, expectedFound := 0, expectedTotal := 1
          unexpectedFound := 0
          evaluationReason := some (String.intercalate "; " (errors.take 5))
          error := some (String.intercalate "; " (errors.take 5)) }

/-- `evaluateOutput` of `test-runner.ts`: dispatch on the normalized
evaluation mode, falling back to the skipped result when the mode is
unrecognized or the mode-specific configuration is blank. -/
def evaluateOutput (llmConfigured : Bool) (cap : CapabilityOutcome)
    (rt : String → String → Option Bool) (parseSchema : String → Option JsonSchemaM)
    (jsParse : String → Option JsonValue) (evaluationMode : Option String)
    (evaluationCriteria : Option String) (evaluationSchema : Option String)
    (output : JsonValue) : EvaluationResult :=
  let mode := normalizeEvaluationMode evaluationMode
  if mode = some "llm" then
    if hasText evaluationCriteria then evaluateWithLLM llmConfigured cap
    else getSkippedEvaluationResult
  else if mode = some "schema" then
    match evaluationSchema with
    | some s =>
        if s.trim == "" then getSkippedEvaluationResult
        else evaluateWithSchema rt parseSchema jsParse s.trim output
    | none => getSkippedEvaluationResult
  else getSkippedEvaluationResult

/-- A test case as consumed by `runTests` (id, input, optional per-case
evaluation schema). -/
structure TestCaseM where
  id : Nat
  input : String
  evaluationSchema : Option String

/-- The environment of one `runTests` call that is shared by all units:
grader configuration, the JS runtime facilities, and the prompt's
evaluation mode and criteria. -/
structure RunEnv where
  llmConfigured : Bool
  rt : String → String → Option Bool
  parseSchema : String → Option JsonSchemaM
  jsParse : String → Option JsonValue
  evaluationMode : Option String
  evaluationCriteria : Option String

/-- A `RunResult` of `test-runner.ts` (`durationMs`, a wall-clock reading, is
outside the model). -/
structure RunResultM where
  runNumber : Nat
  actualOutput : Option JsonValue
  isCorrect : Bool
  score : ℚ
  expectedFound : Nat
  expectedTotal : Nat
  unexpectedFound : Nat
  evaluationReason : Option String
  error : Option String

/-- One `createTestResult` row (serialization of the output to text is
outside the model; `durationMs` likewise). -/
structure PersistedResult where
  jobId : String
  testCaseId : Nat
  llmProvider : String
  runNumber : Nat
  actualOutput : Option JsonValue
  isCorrect : Bool
  score : ℚ
  expectedFound : Nat
  expectedTotal : Nat
  unexpectedFound : Nat
  evaluationReason : Option String

/-- A `TestCaseResult` of `test-runner.ts`. -/
structure TestCaseResultM where
  testCaseId : Nat
  input : String
  runs : List RunResultM
  correctRuns : Nat
  averageScore : ℚ

/-- An `LLMTestResult` of `test-runner.ts` (duration stats omitted). -/
structure RunnerResultM where
  llmName : String
  correctCount : Nat
  totalRuns : Nat
  score : ℚ
  testCaseResults : List TestCaseResultM

/-- The value of `runTests` plus the `createTestResult` rows it issued. -/
structure RunOutcome where
  score : ℚ
  results : List RunnerResultM
  persisted : List PersistedResult

/-- The body of one repetition of `runTests`: invoke the generation
capability (its outcome is `genOut`); on success evaluate the output, on a
thrown error record a zero-score result carrying the error message — the
`catch` block of the source, which is why one repetition's failure can never
abort a sibling. -/
def runOneRep (env : RunEnv) (tc : TestCaseM) (runNumber : Nat)
    (genOut : Except String JsonValue) (cap : CapabilityOutcome) : RunResultM :=
  match genOut with
  | .ok output =>
      let r := evaluateOutput env.llmConfigured cap env.rt env.parseSchema env.jsParse
        env.evaluationMode env.evaluationCriteria tc.evaluationSchema output
      { runNumber := runNumber, actualOutput := some output, isCorrect := r.isCorrect
        score := r.score, expectedFound := r.expectedFound, expectedTotal := r.expectedTotal
        unexpectedFound := r.unexpectedFound, evaluationReason := r.evaluationReason
        error := r.error }
  | .error msg =>
      { runNumber := runNumber, actualOutput := none, isCorrect := false, score := 0
        expectedFound := 0, expectedTotal := 0, unexpectedFound := 0
        evaluationReason := some msg, error := some msg }

/-- The per-test-case loop of `runTests`: repetitions `1..runsPerTest` run in
order; `correctRuns` counts correct runs and `averageScore` divides the
accumulated score by the number of runs (a failed run contributes score 0 to
the sum, exactly as the source's `totalScore` — which is only incremented on
the success path — does). -/
def runTestCaseM (env : RunEnv) (tc : TestCaseM) (runsPerTest : Nat)
    (gen : Nat → Except String JsonValue) (cap : Nat → CapabilityOutcome) : TestCaseResultM :=
  let runs := (List.range runsPerTest).map (fun i => runOneRep env tc (i + 1) (gen i) (cap i))
  { testCaseId := tc.id, input := tc.input, runs := runs
    correctRuns := runs.countP (fun r => r.isCorrect)
    averageScore :=
      if 0 < runs.length then (runs.map (fun r => r.score)).sum / (runs.length : ℚ) else 0 }

/-- The per-runner body of `runTests`: every test case is executed, the
runner's score is the mean of the per-test-case averages (lines 858-862 of
the source: equal weight per test case), `correctCount`/`totalRuns`
accumulate over all runs. -/
def runRunnerM (env : RunEnv) (testCases : List TestCaseM) (runsPerTest : Nat) (name : String)
    (gen : Nat → Nat → Except String JsonValue) (cap : Nat → Nat → CapabilityOutcome) :
    RunnerResultM :=
  let testCaseResults :=
    testCases.enum.map (fun p => runTestCaseM env p.2 runsPerTest (gen p.1) (cap p.1))
  { llmName := name
    correctCount := (testCaseResults.map (fun tc => tc.correctRuns)).sum
    totalRuns := (testCaseResults.map (fun tc => tc.runs.length)).sum
    score :=
      if 0 < testCaseResults.length then
        (testCaseResults.map (fun tc => tc.averageScore)).sum / (testCaseResults.length : ℚ)
      else 0
    testCaseResults := testCaseResults }

/-- The `createTestResult` row for one repetition. -/
def persistedOfRun (jobId : String) (testCaseId : Nat) (llmProvider : String)
    (r : RunResultM) : PersistedResult :=
  { jobId := jobId, testCaseId := testCaseId, llmProvider := llmProvider
    runNumber := r.runNumber, actualOutput := r.actualOutput, isCorrect := r.isCorrect
    score := r.score, expectedFound := r.expectedFound, expectedTotal := r.expectedTotal
    unexpectedFound := r.unexpectedFound, evaluationReason := r.evaluationReason }

/-- `runTests` of `test-runner.ts` (current variant, lines 661-903), with the
generation and grading capabilities as outcome-valued functions of
(runner index, test case index, repetition index): every runner runs every
test case for `runsPerTest` repetitions, the overall score is the mean of the
per-runner scores, and with a job id every repetition is persisted. The
concurrent fan-out of the source affects only scheduling; every unit's
result and row are data-independent of the others, so the deterministic
order used here is observationally equivalent. -/
def runTests (env : RunEnv) (testCases : List TestCaseM) (runners : List String)
    (runsPerTest : Nat) (gen : Nat → Nat → Nat → Except String JsonValue)
    (cap : Nat → Nat → Nat → CapabilityOutcome) (jobId : Option String) : RunOutcome :=
  let results :=
    runners.enum.map (fun p => runRunnerM env testCases runsPerTest p.2 (gen p.1) (cap p.1))
  { score :=
      if 0 < results.length then
        (results.map (fun r => r.score)).sum / (results.length : ℚ)
      else 0
    results := results
    persisted :=
      match jobId with
      | none => []
      | some jid =>
          (results.map (fun r =>
            (r.testCaseResults.map (fun tcr =>
              tcr.runs.map (fun run =>
                persistedOfRun jid tcr.testCaseId r.llmName run))).flatten)).flatten }

/-! ### Claim C8: score aggregation -/

/-- Claim C8: in every run with at least one test case and at least one
repetition, each test case's average is the mean of its repetitions' scores,
each runner's score is the unweighted mean of its per-test-case averages
(each of which covers exactly `runsPerTest` runs, so every test case has
equal weight), and the overall score returned by `runTests` is the mean of
the per-runner scores. -/
theorem claim_C8_score_aggregation (env : RunEnv) (testCases : List TestCaseM)
    (runners : List String) (runsPerTest : Nat)
    (gen : Nat → Nat → Nat → Except String JsonValue)
    (cap : Nat → Nat → Nat → CapabilityOutcome) (jobId : Option String)
    (hcases : testCases ≠ []) (hreps : 0 < runsPerTest) :
    (∀ r ∈ (runTests env testCases runners runsPerTest gen cap jobId).results,
        r.testCaseResults.length = testCases.length
          ∧ ∀ tcr ∈ r.testCaseResults,
              tcr.runs.length = runsPerTest
                ∧ tcr.averageScore = (tcr.runs.map (fun x => x.score)).sum / (tcr.runs.length : ℚ))
    ∧ (∀ r ∈ (runTests env testCases runners runsPerTest gen cap jobId).results,
        r.score = (r.testCaseResults.map (fun tc => tc.averageScore)).sum
            / (r.testCaseResults.length : ℚ))
    ∧ (runTests env testCases runners runsPerTest gen cap jobId).results.length
        = runners.length
    ∧ (runTests env testCases runners runsPerTest gen cap jobId).score
        = ((runTests env testCases runners runsPerTest gen cap jobId).results.map
            (fun r => r.score)).sum
          / (((runTests env testCases runners runsPerTest gen cap jobId).results.length : ℚ)) := by
  have hrunsLen : ∀ (tc : TestCaseM) (g : Nat → Except String JsonValue)
      (c : Nat → CapabilityOutcome),
      (runTestCaseM env tc runsPerTest g c).runs.length = runsPerTest := by
    intro tc g c
    simp [runTestCaseM]
  have htcLen : ∀ (name : String) (g : Nat → Nat → Except String JsonValue)
      (c : Nat → Nat → CapabilityOutcome),
      (runRunnerM env testCases runsPerTest name g c).testCaseResults.length
        = testCases.length := by
    intro name g c
    simp [runRunnerM]
  refine ⟨?_, ?_, ?_, ?_⟩
  · intro r hr
    obtain ⟨p, hp, rfl⟩ := List.mem_map.mp hr
    refine ⟨htcLen _ _ _, ?_⟩
    intro tcr htcr
    simp only [runRunnerM] at htcr
    obtain ⟨q, hq, rfl⟩ := List.mem_map.mp htcr
    refine ⟨hrunsLen _ _ _, ?_⟩
    have hlen := hrunsLen q.2 (gen p.1 q.1) (cap p.1 q.1)
    simp only [runTestCaseM] at hlen ⊢
    rw [if_pos (by rw [hlen]; exact hreps)]
  · intro r hr
    obtain ⟨p, hp, rfl⟩ := List.mem_map.mp hr
    have hlen := htcLen p.2 (gen p.1) (cap p.1)
    simp only [runRunnerM] at hlen ⊢
    rw [if_pos (by rw [hlen]; exact List.length_pos.mpr hcases)]
  · simp [runTests]
  · by_cases hrunners : runners = []
    · subst hrunners
      simp [runTests, runRunnerM]
    · simp only [runTests]
      rw [if_pos (by simpa using List.length_pos.mpr hrunners)]

/-- Witness for claim C8 at a one-runner, one-case, one-repetition run. -/
theorem claim_C8_score_aggregation_witness :
    (runTests ⟨false, fun _ _ => none, fun _ => none, fun _ => none, none, none⟩
        [⟨1, "x", none⟩] ["m"] 1 (fun _ _ _ => Except.ok JsonValue.null)
        (fun _ _ _ => CapabilityOutcome.ok JsonValue.null) none).results.length
      = (["m"] : List String).length :=
  (claim_C8_score_aggregation ⟨false, fun _ _ => none, fun _ => none, fun _ => none, none, none⟩
    [⟨1, "x", none⟩] ["m"] 1 (fun _ _ _ => Except.ok JsonValue.null)
    (fun _ _ _ => CapabilityOutcome.ok JsonValue.null) none (by simp) (by omega)).2.2.1

theorem sum_map_const_nat {α : Type _} (l : List α) (f : α → Nat) (c : Nat)
    (h : ∀ x ∈ l, f x = c) : (l.map f).sum = l.length * c := by
  induction l with
  | nil => simp
  | cons x xs ih =>
    rw [List.map_cons, List.sum_cons, h x (List.mem_cons_self _ _),
      ih (fun y hy => h y (List.mem_cons_of_mem _ hy)), List.length_cons]
    ring

theorem runTestCaseM_runs_length (env : RunEnv) (tc : TestCaseM) (runsPerTest : Nat)
    (g : Nat → Except String JsonValue) (c : Nat → CapabilityOutcome) :
    (runTestCaseM env tc runsPerTest g c).runs.length = runsPerTest := by
  simp [runTestCaseM]

theorem runRunnerM_testCases_length (env : RunEnv) (testCases : List TestCaseM)
    (runsPerTest : Nat) (name : String) (g : Nat → Nat → Except String JsonValue)
    (c : Nat → Nat → CapabilityOutcome) :
    (runRunnerM env testCases runsPerTest name g c).testCaseResults.length
      = testCases.length := by
  simp [runRunnerM]

/-! ### Claim C9: one repetition's generation failure is isolated -/

/-- Claim C9: when the generation call of one repetition throws, `runTests`
records for that repetition a result with score 0, `isCorrect = false` and
the error message as its reason, persists it under the job id, and still
executes, records and persists every other repetition of every unit: every
runner still holds every test case with exactly `runsPerTest` recorded runs,
and exactly one persisted row exists per repetition of the whole run. -/
theorem claim_C9_unit_failure_isolated (env : RunEnv) (testCases : List TestCaseM)
    (runners : List String) (runsPerTest : Nat)
    (gen : Nat → Nat → Nat → Except String JsonValue)
    (cap : Nat → Nat → Nat → CapabilityOutcome) (jid : String)
    (r0 t0 k0 : Nat) (msg : String)
    (hr0 : r0 < runners.length) (ht0 : t0 < testCases.length) (hk0 : k0 < runsPerTest)
    (hfail : gen r0 t0 k0 = Except.error msg) :
    ((runTests env testCases runners runsPerTest gen cap (some jid)).results.length
        = runners.length
      ∧ ∀ r ∈ (runTests env testCases runners runsPerTest gen cap (some jid)).results,
          r.testCaseResults.length = testCases.length
            ∧ ∀ tcr ∈ r.testCaseResults, tcr.runs.length = runsPerTest)
    ∧ (∃ r tcr run,
        (runTests env testCases runners runsPerTest gen cap (some jid)).results[r0]? = some r
          ∧ r.testCaseResults[t0]? = some tcr
          ∧ tcr.runs[k0]? = some run
          ∧ run = { runNumber := k0 + 1, actualOutput := none, isCorrect := false, score := 0
                    expectedFound := 0, expectedTotal := 0, unexpectedFound := 0
                    evaluationReason := some msg, error := some msg }
          ∧ persistedOfRun jid tcr.testCaseId r.llmName run
              ∈ (runTests env testCases runners runsPerTest gen cap (some jid)).persisted)
    ∧ (runTests env testCases runners runsPerTest gen cap (some jid)).persisted.length
        = runners.length * (testCases.length * runsPerTest) := by
  refine ⟨⟨by simp [runTests], ?_⟩, ?_, ?_⟩
  · intro r hr
    obtain ⟨p, hp, rfl⟩ := List.mem_map.mp hr
    refine ⟨runRunnerM_testCases_length _ _ _ _ _ _, ?_⟩
    intro tcr htcr
    simp only [runRunnerM] at htcr
    obtain ⟨q, hq, rfl⟩ := List.mem_map.mp htcr
    exact runTestCaseM_runs_length _ _ _ _ _
  · have hgetr : (runTests env testCases runners runsPerTest gen cap (some jid)).results[r0]?
        = some (runRunnerM env testCases runsPerTest runners[r0] (gen r0) (cap r0)) := by
      simp [runTests, List.getElem?_map, List.getElem?_enum, List.getElem?_eq_getElem hr0]
    have hgett : (runRunnerM env testCases runsPerTest runners[r0] (gen r0)
          (cap r0)).testCaseResults[t0]?
        = some (runTestCaseM env testCases[t0] runsPerTest (gen r0 t0) (cap r0 t0)) := by
      simp [runRunnerM, List.getElem?_map, List.getElem?_enum, List.getElem?_eq_getElem ht0]
    have hgetk : (runTestCaseM env testCases[t0] runsPerTest (gen r0 t0)
          (cap r0 t0)).runs[k0]?
        = some (runOneRep env testCases[t0] (k0 + 1) (gen r0 t0 k0) (cap r0 t0 k0)) := by
      simp [runTestCaseM, List.getElem?_map, List.getElem?_range hk0]
    refine ⟨_, _, _, hgetr, hgett, hgetk, by simp [runOneRep, hfail], ?_⟩
    have hrmem := List.getElem?_mem hgetr
    have htmem := List.getElem?_mem hgett
    have hkmem := List.getElem?_mem hgetk
    show _ ∈ (runTests env testCases runners runsPerTest gen cap (some jid)).persisted
    simp only [runTests, List.mem_flatten]
    refine ⟨_, List.mem_map_of_mem _ (by simpa [runTests] using hrmem), ?_⟩
    rw [List.mem_flatten]
    exact ⟨_, List.mem_map_of_mem _ htmem, List.mem_map_of_mem _ hkmem⟩
  · simp only [runTests]
    rw [List.length_flatten]
    rw [sum_map_const_nat _ _ (testCases.length * runsPerTest) ?h1]
    · simp
    case h1 =>
      intro x hx
      obtain ⟨r, hrmem, rfl⟩ := List.mem_map.mp hx
      rw [List.length_flatten]
      obtain ⟨p, hp, rfl⟩ := List.mem_map.mp hrmem
      rw [sum_map_const_nat _ _ runsPerTest ?h2]
      · rw [List.length_map, runRunnerM_testCases_length]
      case h2 =>
        intro x hx2
        obtain ⟨tcr, htcr, rfl⟩ := List.mem_map.mp hx2
        rw [List.length_map]
        simp only [runRunnerM] at htcr
        obtain ⟨q, hq, rfl⟩ := List.mem_map.mp htcr
        simp [runTestCaseM]

/-- Witness for claim C9: a run whose only repetition's generation call
throws still reports one runner result. -/
theorem claim_C9_unit_failure_isolated_witness :
    (runTests ⟨false, fun _ _ => none, fun _ => none, fun _ => none, none, none⟩
        [⟨1, "x", none⟩] ["m"] 1 (fun _ _ _ => Except.error "down")
        (fun _ _ _ => CapabilityOutcome.err "down") (some "job")).results.length
      = (["m"] : List String).length :=
  (claim_C9_unit_failure_isolated
    ⟨false, fun _ _ => none, fun _ => none, fun _ => none, none, none⟩
    [⟨1, "x", none⟩] ["m"] 1 (fun _ _ _ => Except.error "down")
    (fun _ _ _ => CapabilityOutcome.err "down") "job" 0 0 0 "down"
    (by decide) (by decide) (by decide) rfl).1.1

theorem sum_map_ones_rat {α : Type _} (l : List α) (f : α → ℚ) (h : ∀ x ∈ l, f x = 1) :
    (l.map f).sum = (l.length : ℚ) := by
  induction l with
  | nil => simp
  | cons x xs ih =>
    rw [List.map_cons, List.sum_cons, h x (List.mem_cons_self _ _),
      ih (fun y hy => h y (List.mem_cons_of_mem _ hy)), List.length_cons]
    push_cast
    ring

/-- When the evaluation mode is unrecognized, or mode-specific configuration
is blank, `evaluateOutput` returns the skipped result. -/
theorem evaluateOutput_skipped (cfg : Bool) (cap : CapabilityOutcome)
    (rt : String → String → Option Bool) (ps : String → Option JsonSchemaM)
    (jp : String → Option JsonValue) (mode criteria schema : Option String)
    (output : JsonValue)
    (h : normalizeEvaluationMode mode = none
      ∨ (mode = some "llm" ∧ hasText criteria = false)
      ∨ (mode = some "schema" ∧ hasText schema = false)) :
    evaluateOutput cfg cap rt ps jp mode criteria schema output
      = getSkippedEvaluationResult := by
  rcases h with h | ⟨rfl, hcrit⟩ | ⟨rfl, hsch⟩
  · simp [evaluateOutput, h]
  · simp [evaluateOutput, normalizeEvaluationMode, hcrit]
  · cases schema with
    | none => simp [evaluateOutput, normalizeEvaluationMode]
    | some s =>
      simp only [hasText, bne_eq_false_iff_eq] at hsch
      simp [evaluateOutput, normalizeEvaluationMode, hsch]

/-! ### Claim C10: skipped evaluation counts as fully correct -/

/-- Claim C10: whenever the evaluation mode is anything other than `"llm"` or
`"schema"` (absent or unrecognized), or it is `"llm"` with blank criteria, or
`"schema"` with a blank schema string, `evaluateOutput` returns the
skipped-evaluation result (`isCorrect = true`, `score = 1`); consequently,
in a run whose every unit skips evaluation and whose generation calls all
succeed, every recorded run is correct with score 1, `correctCount` equals
`totalRuns`, every per-test-case average, per-runner score and the overall
score equal 1. -/
theorem claim_C10_skipped_evaluation_counts_correct :
    (∀ (cfg : Bool) (cap : CapabilityOutcome) (rt : String → String → Option Bool)
        (ps : String → Option JsonSchemaM) (jp : String → Option JsonValue)
        (mode criteria schema : Option String) (output : JsonValue),
        (normalizeEvaluationMode mode = none
          ∨ (mode = some "llm" ∧ hasText criteria = false)
          ∨ (mode = some "schema" ∧ hasText schema = false)) →
        evaluateOutput cfg cap rt ps jp mode criteria schema output
          = getSkippedEvaluationResult
          ∧ (getSkippedEvaluationResult.isCorrect = true ∧ getSkippedEvaluationResult.score = 1))
    ∧ (∀ (env : RunEnv) (testCases : List TestCaseM) (runners : List String)
        (runsPerTest : Nat) (gen : Nat → Nat → Nat → Except String JsonValue)
        (cap : Nat → Nat → Nat → CapabilityOutcome) (jobId : Option String),
        (∀ tc ∈ testCases,
          normalizeEvaluationMode env.evaluationMode = none
            ∨ (env.evaluationMode = some "llm" ∧ hasText env.evaluationCriteria = false)
            ∨ (env.evaluationMode = some "schema" ∧ hasText tc.evaluationSchema = false)) →
        (∀ r t k, ∃ v, gen r t k = Except.ok v) →
        testCases ≠ [] → 0 < runsPerTest →
        (∀ r ∈ (runTests env testCases runners runsPerTest gen cap jobId).results,
            (∀ tcr ∈ r.testCaseResults,
                (∀ run ∈ tcr.runs, run.isCorrect = true ∧ run.score = 1)
                  ∧ tcr.averageScore = 1)
              ∧ r.correctCount = r.totalRuns ∧ r.score = 1)
          ∧ (runners ≠ [] →
              (runTests env testCases runners runsPerTest gen cap jobId).score = 1)) := by
  constructor
  · intro cfg cap rt ps jp mode criteria schema output h
    exact ⟨evaluateOutput_skipped cfg cap rt ps jp mode criteria schema output h, rfl, rfl⟩
  · intro env testCases runners runsPerTest gen cap jobId hskip hgen hcases hreps
    have hrunAll : ∀ (tc : TestCaseM), tc ∈ testCases → ∀ (a b i : Nat),
        (runOneRep env tc (i + 1) (gen a b i) (cap a b i)).isCorrect = true
          ∧ (runOneRep env tc (i + 1) (gen a b i) (cap a b i)).score = 1 := by
      intro tc htc a b i
      obtain ⟨v, hv⟩ := hgen a b i
      rw [hv]
      simp only [runOneRep]
      rw [evaluateOutput_skipped _ _ _ _ _ _ _ _ _ (hskip tc htc)]
      exact ⟨rfl, rfl⟩
    have htcAll : ∀ (q : Nat × TestCaseM), q ∈ testCases.enum → ∀ (a : Nat),
        (∀ run ∈ (runTestCaseM env q.2 runsPerTest (gen a q.1) (cap a q.1)).runs,
            run.isCorrect = true ∧ run.score = 1)
          ∧ (runTestCaseM env q.2 runsPerTest (gen a q.1) (cap a q.1)).averageScore = 1
          ∧ (runTestCaseM env q.2 runsPerTest (gen a q.1) (cap a q.1)).correctRuns
              = (runTestCaseM env q.2 runsPerTest (gen a q.1) (cap a q.1)).runs.length := by
      intro q hq a
      have htc := List.snd_mem_of_mem_enum hq
      have hruns : ∀ run ∈ (runTestCaseM env q.2 runsPerTest (gen a q.1) (cap a q.1)).runs,
          run.isCorrect = true ∧ run.score = 1 := by
        intro run hrun
        simp only [runTestCaseM] at hrun
        obtain ⟨i, hi, rfl⟩ := List.mem_map.mp hrun
        exact hrunAll q.2 htc a q.1 i
      refine ⟨hruns, ?_, ?_⟩
      · have hlen := runTestCaseM_runs_length env q.2 runsPerTest (gen a q.1) (cap a q.1)
        simp only [runTestCaseM] at hruns hlen ⊢
        rw [if_pos (by rw [hlen]; exact hreps)]
        rw [sum_map_ones_rat _ _ (fun x hx => (hruns x hx).2)]
        rw [div_self (by rw [hlen]; exact Nat.cast_ne_zero.mpr (by omega))]
      · simp only [runTestCaseM] at hruns ⊢
        exact List.countP_eq_length.mpr (fun x hx => (hruns x hx).1)
    refine ⟨?_, ?_⟩
    · intro r hr
      obtain ⟨p, hp, rfl⟩ := List.mem_map.mp hr
      have htcs : ∀ tcr ∈ (runRunnerM env testCases runsPerTest p.2 (gen p.1)
          (cap p.1)).testCaseResults,
          (∀ run ∈ tcr.runs, run.isCorrect = true ∧ run.score = 1)
            ∧ tcr.averageScore = 1
            ∧ tcr.correctRuns = tcr.runs.length := by
        intro tcr htcr
        simp only [runRunnerM] at htcr
        obtain ⟨q, hq, rfl⟩ := List.mem_map.mp htcr
        exact htcAll q hq p.1
      refine ⟨fun tcr htcr => ⟨(htcs tcr htcr).1, (htcs tcr htcr).2.1⟩, ?_, ?_⟩
      · simp only [runRunnerM] at htcs ⊢
        exact congrArg List.sum
          (List.map_congr_left (fun tcr htcr => (htcs tcr htcr).2.2))
      · have hlen := runRunnerM_testCases_length env testCases runsPerTest p.2 (gen p.1) (cap p.1)
        simp only [runRunnerM] at htcs hlen ⊢
        rw [if_pos (by rw [hlen]; exact List.length_pos.mpr hcases)]
        rw [sum_map_ones_rat _ _ (fun x hx => (htcs x hx).2.1), div_self]
        rw [hlen]
        exact Nat.cast_ne_zero.mpr (by have := List.length_pos.mpr hcases; omega)
    · intro hrunners
      have hscores : ∀ r ∈ (runTests env testCases runners runsPerTest gen cap jobId).results,
          r.score = 1 := by
        intro r hr
        obtain ⟨p, hp, rfl⟩ := List.mem_map.mp hr
        have hlen := runRunnerM_testCases_length env testCases runsPerTest p.2 (gen p.1) (cap p.1)
        have htcs : ∀ tcr ∈ (runRunnerM env testCases runsPerTest p.2 (gen p.1)
            (cap p.1)).testCaseResults, tcr.averageScore = 1 := by
          intro tcr htcr
          simp only [runRunnerM] at htcr
          obtain ⟨q, hq, rfl⟩ := List.mem_map.mp htcr
          exact (htcAll q hq p.1).2.1
        simp only [runRunnerM] at htcs hlen ⊢
        rw [if_pos (by rw [hlen]; exact List.length_pos.mpr hcases)]
        rw [sum_map_ones_rat _ _ htcs, div_self]
        rw [hlen]
        exact Nat.cast_ne_zero.mpr (by have := List.length_pos.mpr hcases; omega)
      have hlen2 : ((runners.enum.map (fun p =>
          runRunnerM env testCases runsPerTest p.2 (gen p.1) (cap p.1)))).length
          = runners.length := by simp
      simp only [runTests] at hscores ⊢
      rw [if_pos (by rw [hlen2]; exact List.length_pos.mpr hrunners)]
      rw [sum_map_ones_rat _ _ hscores, div_self]
      rw [hlen2]
      exact Nat.cast_ne_zero.mpr (by have := List.length_pos.mpr hrunners; omega)

/-- Witness for claim C10: an unrecognized evaluation mode yields the
skipped result. -/
theorem claim_C10_skipped_evaluation_counts_correct_witness :
    evaluateOutput false (CapabilityOutcome.err "x") (fun _ _ => none) (fun _ => none)
        (fun _ => none) (some "banana") none none JsonValue.null
      = getSkippedEvaluationResult
      ∧ (getSkippedEvaluationResult.isCorrect = true
          ∧ getSkippedEvaluationResult.score = 1) :=
  claim_C10_skipped_evaluation_counts_correct.1 false (CapabilityOutcome.err "x")
    (fun _ _ => none) (fun _ => none) (fun _ => none) (some "banana") none none
    JsonValue.null (Or.inl (by decide))

/-! ### Claim C7: the optimizer loop (modelled from the spec) -/

/-- Modelled from the spec: the outcome of one grading step of the optimizer
loop (spec section 4.3/4.4) — a bounded judgement (score plus reason) or a
grading failure. The optimizer-loop implementation itself is not present
under `src/`; only its configuration fields (`optimizer_max_iterations`,
`optimizer_score_threshold`) and its feature documentation are. -/
inductive GradeOutcome where
  | ok (score : ℚ) (reason : String)
  | fail (message : String)

/-- Modelled from the spec: one Evaluation Round of the optimizer loop
(spec section 3): round number, the graded output, and the grading result. -/
structure EvalRound where
  roundNumber : Nat
  output : String
  score : ℚ
  reason : String

/-- Modelled from the spec: the early-stop test — the score has reached the
optional threshold; an absent threshold never triggers (spec section 4.4). -/
def thresholdReached (threshold : Option ℚ) (score : ℚ) : Bool :=
  match threshold with
  | some t => decide (t ≤ score)
  | none => false

/-- Modelled from the spec: rounds `k, k+1, ...` of the optimizer loop
(spec section 4.4). With the latest round's output and grading result at
hand, the loop stops when the iteration budget is exhausted, when the score
reaches the threshold, or when grading fails (keeping the prior round as
final); otherwise the optimizer capability revises the latest output from
only the latest score and reason, and the revision is graded as round `k`. -/
def optimizerIter (grade : String → GradeOutcome) (optimize : String → ℚ → String → String)
    (threshold : Option ℚ) : Nat → Nat → String → ℚ → String → List EvalRound
  | 0, _, _, _, _ => []
  | budget + 1, k, latestOutput, latestScore, latestReason =>
      if thresholdReached threshold latestScore then []
      else
        let revised := optimize latestOutput latestScore latestReason
        match grade revised with
        | .fail _ => []
        | .ok s2 r2 =>
            ⟨k, revised, s2, r2⟩
              :: optimizerIter grade optimize threshold budget (k + 1) revised s2 r2

/-- Modelled from the spec: the full optimizer loop for one unit
(spec section 4.4). Round 0 grades the initial output (a grading failure
fails closed into a zero-score round, per section 4.3, and stops the loop);
optimizer rounds follow, bounded by the configured iteration limit. The
returned list is the unit's Evaluation Round sequence. -/
def optimizerLoop (grade : String → GradeOutcome) (optimize : String → ℚ → String → String)
    (limit : Nat) (threshold : Option ℚ) (initialOutput : String) : List EvalRound :=
  match grade initialOutput with
  | .fail m => [⟨0, initialOutput, 0, m⟩]
  | .ok s r =>
      ⟨0, initialOutput, s, r⟩ :: optimizerIter grade optimize threshold limit 1 initialOutput s r

theorem optimizerIter_length_le (grade : String → GradeOutcome)
    (optimize : String → ℚ → String → String) (threshold : Option ℚ) :
    ∀ (budget k : Nat) (out : String) (s : ℚ) (r : String),
      (optimizerIter grade optimize threshold budget k out s r).length ≤ budget := by
  intro budget
  induction budget with
  | zero => intro k out s r; simp [optimizerIter]
  | succ b ih =>
    intro k out s r
    simp only [optimizerIter]
    split
    · simp
    · split
      · simp
      · simpa using Nat.succ_le_succ (ih _ _ _ _)

/-- Claim C7: for every unit and every configured iteration limit, the
optimizer loop performs at most `limit + 1` evaluation rounds; with
`limit = 0` it performs exactly 1 round (the initial grading only); and it
performs exactly 1 round when the initial score already reaches the
threshold or when the initial grading fails. -/
theorem claim_C7_optimizer_round_bound :
    (∀ (grade : String → GradeOutcome) (optimize : String → ℚ → String → String)
        (limit : Nat) (threshold : Option ℚ) (init : String),
        (optimizerLoop grade optimize limit threshold init).length ≤ limit + 1)
    ∧ (∀ (grade : String → GradeOutcome) (optimize : String → ℚ → String → String)
        (threshold : Option ℚ) (init : String),
        (optimizerLoop grade optimize 0 threshold init).length = 1)
    ∧ (∀ (grade : String → GradeOutcome) (optimize : String → ℚ → String → String)
        (limit : Nat) (threshold : Option ℚ) (init : String) (s : ℚ) (r : String),
        grade init = GradeOutcome.ok s r → thresholdReached threshold s = true →
        (optimizerLoop grade optimize limit threshold init).length = 1)
    ∧ (∀ (grade : String → GradeOutcome) (optimize : String → ℚ → String → String)
        (limit : Nat) (threshold : Option ℚ) (init : String) (m : String),
        grade init = GradeOutcome.fail m →
        (optimizerLoop grade optimize limit threshold init).length = 1) := by
  refine ⟨?_, ?_, ?_, ?_⟩
  · intro grade optimize limit threshold init
    unfold optimizerLoop
    split
    · simp
    · simpa using Nat.succ_le_succ (optimizerIter_length_le grade optimize threshold limit _ _ _ _)
  · intro grade optimize threshold init
    unfold optimizerLoop
    split
    · rfl
    · simp [optimizerIter]
  · intro grade optimize limit threshold init s r hok hth
    unfold optimizerLoop
    rw [hok]
    cases limit with
    | zero => simp [optimizerIter]
    | succ b => simp [optimizerIter, hth]
  · intro grade optimize limit threshold init m hfail
    unfold optimizerLoop
    rw [hfail]
    rfl

/-- Witness for claim C7: when the grading capability fails on the initial
output, the loop holds exactly the initial round. -/
theorem claim_C7_optimizer_round_bound_witness :
    (optimizerLoop (fun _ => GradeOutcome.fail "no judge") (fun out _ _ => out)
        5 none "draft").length = 1 :=
  claim_C7_optimizer_round_bound.2.2.2 (fun _ => GradeOutcome.fail "no judge")
    (fun out _ _ => out) 5 none "draft" "no judge" rfl

end RP
